import Mathlib

set_option maxHeartbeats 1000000

namespace Fuzzion2

/-! Shallow embedding of the fuzzion2 source (src/cpp of the repository).
    C++ strings are modelled as `List Char`, C++ `int` as `Int` (or `Nat`
    where the source guarantees non-negativity), and `uint64_t` arithmetic
    with an explicit `% 2 ^ 64`. -/

/-- charToBase from kmer.h: A/a ↦ 0, C/c ↦ 1, G/g ↦ 2, T/t ↦ 3, any other
    character ↦ 4 (BASE_OTHER). -/
def charToBase (ch : Char) : Nat :=
  if ch = 'A' ∨ ch = 'a' then 0
  else if ch = 'C' ∨ ch = 'c' then 1
  else if ch = 'G' ∨ ch = 'g' then 2
  else if ch = 'T' ∨ ch = 't' then 3
  else 4

/-- BASE_CHAR lookup from kmer.h: the display character of a 2-bit base. -/
def baseChar (b : Nat) : Char :=
  if b = 0 then 'A' else if b = 1 then 'C' else if b = 2 then 'G' else 'T'

/-- stringReverseComplement from kmer.cpp: position i of the result is taken
    from s[slen - 1 - i]; a defined base maps to BASE_CHAR[3 - base], any
    other character is copied unchanged. -/
def stringReverseComplement (s : List Char) : List Char :=
  (List.range s.length).map (fun i =>
    let ch := s.getD (s.length - 1 - i) 'N'
    let base := charToBase ch
    if base < 4 then baseChar (3 - base) else ch)

/-- The character mapping described by the spec for the reverse complement:
    each of the eight base characters maps to the upper-case complement of
    its base, every other character is unchanged. -/
def specComplementChar (ch : Char) : Char :=
  if ch = 'A' ∨ ch = 'a' then 'T'
  else if ch = 'C' ∨ ch = 'c' then 'G'
  else if ch = 'G' ∨ ch = 'g' then 'C'
  else if ch = 'T' ∨ ch = 't' then 'A'
  else ch

theorem perCharComplement (ch : Char) :
    (if charToBase ch < 4 then baseChar (3 - charToBase ch) else ch) =
      specComplementChar ch := by
  unfold charToBase specComplementChar baseChar
  split_ifs <;> simp_all

theorem specComplementChar_involutive (ch : Char)
    (h : ch ≠ 'a' ∧ ch ≠ 'c' ∧ ch ≠ 'g' ∧ ch ≠ 't') :
    specComplementChar (specComplementChar ch) = ch := by
  obtain ⟨h1, h2, h3, h4⟩ := h
  unfold specComplementChar
  split_ifs <;> simp_all

theorem stringReverseComplement_length (s : List Char) :
    (stringReverseComplement s).length = s.length := by
  simp [stringReverseComplement]

theorem stringReverseComplement_getD (s : List Char) (i : Nat)
    (hi : i < s.length) :
    (stringReverseComplement s).getD i 'N' =
      specComplementChar (s.getD (s.length - 1 - i) 'N') := by
  rw [← perCharComplement]
  have hlen : i < (stringReverseComplement s).length := by
    rwa [stringReverseComplement_length]
  rw [List.getD_eq_getElem _ _ hlen]
  simp [stringReverseComplement]

/-- C10: stringReverseComplement is total and length-preserving; each
    character of the result is the spec complement (upper-case complement of
    a base, identity on undefined characters) of the mirrored input
    character; and on strings with no lower-case a/c/g/t it is an
    involution. -/
theorem stringReverseComplement_ok (s : List Char) :
    (stringReverseComplement s).length = s.length ∧
    (∀ i, i < s.length →
      (stringReverseComplement s).getD i 'N' =
        specComplementChar (s.getD (s.length - 1 - i) 'N')) ∧
    ((∀ ch ∈ s, ch ≠ 'a' ∧ ch ≠ 'c' ∧ ch ≠ 'g' ∧ ch ≠ 't') →
      stringReverseComplement (stringReverseComplement s) = s) := by
  refine ⟨stringReverseComplement_length s,
          fun i hi => stringReverseComplement_getD s i hi, fun hno => ?_⟩
  have hl1 : (stringReverseComplement (stringReverseComplement s)).length =
      s.length := by
    rw [stringReverseComplement_length, stringReverseComplement_length]
  apply List.ext_getElem hl1
  intro i hi1 hi2
  have hi : i < s.length := hi2
  have hrc : i < (stringReverseComplement s).length := by
    rwa [stringReverseComplement_length]
  have e1 : (stringReverseComplement (stringReverseComplement s))[i] =
      (stringReverseComplement (stringReverseComplement s)).getD i 'N' := by
    rw [List.getD_eq_getElem _ _ hi1]
  have e2 : s[i] = s.getD i 'N' := by
    rw [List.getD_eq_getElem _ _ hi]
  rw [e1, e2]
  rw [stringReverseComplement_getD _ i (by rwa [stringReverseComplement_length])]
  rw [stringReverseComplement_length]
  have hidx : s.length - 1 - (s.length - 1 - i) = i := by omega
  rw [stringReverseComplement_getD s (s.length - 1 - i) (by omega), hidx]
  apply specComplementChar_involutive
  have hmem : s.getD i 'N' ∈ s := by
    rw [e2.symm]
    exact List.getElem_mem hi
  exact hno _ hmem

/-- Witness for C10 at a concrete string containing an undefined base. -/
theorem stringReverseComplement_ok_witness :
    stringReverseComplement (stringReverseComplement ['A', 'C', 'G', 'N']) =
      ['A', 'C', 'G', 'N'] ∧
    (stringReverseComplement ['A', 'C', 'G', 'N']).getD 0 'N' =
      specComplementChar 'N' :=
  ⟨(stringReverseComplement_ok ['A', 'C', 'G', 'N']).2.2 (by decide),
   (stringReverseComplement_ok ['A', 'C', 'G', 'N']).2.1 0 (by decide)⟩

/-- One step of the inner DP loop shared by the two lengthOfLCS copies
    (pattern.cpp lines 200-206 and match.cpp lines 125-131): from the
    entries previous[j], previous[j+1], ... of the previous row, the
    remaining characters b[j], b[j+1], ... and the entry current[j] just
    written, produce the entries current[j+1], current[j+2], ... . -/
def lcsRowAux (c : Char) : List Nat → List Char → Nat → List Nat
  | p0 :: p1 :: ps, bj :: bs, cur =>
    let v := if c = bj then p0 + 1 else max cur p1
    v :: lcsRowAux c (p1 :: ps) bs v
  | _, _, _ => []

/-- The row written by one iteration of the outer loop of lengthOfLCS.
    Index 0 of the row buffer is never written by the source and both
    buffers are zero-initialized by new int[lenB + 1](), so the row starts
    with 0. -/
def lcsRow (c : Char) (prev : List Nat) (b : List Char) : List Nat :=
  0 :: lcsRowAux c prev b 0

/-- The pair (previous, current) of row buffers after the outer loop of
    lengthOfLCS: each iteration writes a new row and then swaps the two
    buffer pointers, so previous ends holding the last row written and
    current the row written before it. -/
def lcsRun (a b : List Char) : List Nat × List Nat :=
  a.foldl (fun pc ch => (lcsRow ch pc.1 b, pc.1))
    (List.replicate (b.length + 1) 0, List.replicate (b.length + 1) 0)

/-- lengthOfLCS as defined in match.cpp lines 110-144: the result is read
    from previous[lenB] after the loop.  Out-of-range selections would read
    past the end of the C++ strings; here the substring is clipped, and the
    theorems only use in-range selections. -/
def lengthOfLCSmatch (strA : List Char) (offsetA lenA : Int)
    (strB : List Char) (offsetB lenB : Int) : Nat :=
  if lenA ≤ 0 ∨ lenB ≤ 0 then 0
  else
    (lcsRun ((strA.drop offsetA.toNat).take lenA.toNat)
      ((strB.drop offsetB.toNat).take lenB.toNat)).1.getD lenB.toNat 0

/-- lengthOfLCS as defined in pattern.cpp lines 185-219: the loop is
    identical to the match.cpp copy, but after the final buffer swap the
    result is read from current[lenB], the buffer holding the next-to-last
    row. -/
def lengthOfLCSpattern (strA : List Char) (offsetA lenA : Int)
    (strB : List Char) (offsetB lenB : Int) : Nat :=
  if lenA ≤ 0 ∨ lenB ≤ 0 then 0
  else
    (lcsRun ((strA.drop offsetA.toNat).take lenA.toNat)
      ((strB.drop offsetB.toNat).take lenB.toNat)).2.getD lenB.toNat 0

theorem lcsRowAux_bound (c : Char) (i : Nat) :
    ∀ (bs : List Char) (ps : List Nat) (cur s : Nat),
      (∀ j, ps.getD j 0 ≤ min i (s + j)) → cur ≤ min (i + 1) s →
      ∀ j, (lcsRowAux c ps bs cur).getD j 0 ≤ min (i + 1) (s + j + 1) := by
  intro bs
  induction bs with
  | nil =>
    intro ps cur s _ _ j
    cases ps with
    | nil => simp [lcsRowAux]
    | cons p0 pt =>
      cases pt <;> simp [lcsRowAux]
  | cons bj bt ih =>
    intro ps cur s hps hcur j
    match ps with
    | [] => simp [lcsRowAux]
    | [p0] => simp [lcsRowAux]
    | p0 :: p1 :: ps' =>
      have hv : (if c = bj then p0 + 1 else max cur p1) ≤ min (i + 1) (s + 1) := by
        have h0 := hps 0
        have h1 := hps 1
        simp only [List.getD_cons_zero, List.getD_cons_succ] at h0 h1
        split <;> omega
      cases j with
      | zero =>
        simpa [lcsRowAux] using hv
      | succ j' =>
        have hrec := ih (p1 :: ps') (if c = bj then p0 + 1 else max cur p1)
          (s + 1) (fun j => by
            have := hps (j + 1)
            simpa [Nat.add_assoc, Nat.add_comm, Nat.add_left_comm] using this)
          hv j'
        simp only [lcsRowAux, List.getD_cons_succ]
        calc (lcsRowAux c (p1 :: ps') bt (if c = bj then p0 + 1 else max cur p1)).getD j' 0
            ≤ min (i + 1) (s + 1 + j' + 1) := hrec
          _ ≤ min (i + 1) (s + (j' + 1) + 1) := by omega

theorem lcsRow_bound (c : Char) (i : Nat) (prev : List Nat) (b : List Char)
    (hprev : ∀ j, prev.getD j 0 ≤ min i j) :
    ∀ j, (lcsRow c prev b).getD j 0 ≤ min (i + 1) j := by
  intro j
  cases j with
  | zero => simp [lcsRow]
  | succ j' =>
    have := lcsRowAux_bound c i b prev 0 0 (fun j => by simpa using hprev j)
      (by omega) j'
    simpa [lcsRow] using this

theorem lcsRun_bound_aux (b : List Char) :
    ∀ (rem : List Char) (p cur : List Nat) (i : Nat),
      (∀ j, p.getD j 0 ≤ min i j) → (∀ j, cur.getD j 0 ≤ min i j) →
      (∀ j, (rem.foldl (fun pc ch => (lcsRow ch pc.1 b, pc.1)) (p, cur)).1.getD j 0
          ≤ min (i + rem.length) j) ∧
      (∀ j, (rem.foldl (fun pc ch => (lcsRow ch pc.1 b, pc.1)) (p, cur)).2.getD j 0
          ≤ min (i + rem.length) j) := by
  intro rem
  induction rem with
  | nil =>
    intro p cur i hp hc
    exact ⟨fun j => by simpa using hp j, fun j => by simpa using hc j⟩
  | cons ch rest ih =>
    intro p cur i hp hc
    have hrow := lcsRow_bound ch i p b hp
    have hp' : ∀ j, p.getD j 0 ≤ min (i + 1) j := fun j => by
      have := hp j; omega
    have := ih (lcsRow ch p b) p (i + 1) hrow hp'
    constructor
    · intro j
      have h := this.1 j
      simp only [List.foldl_cons]
      calc ((rest.foldl (fun pc ch => (lcsRow ch pc.1 b, pc.1))
              (lcsRow ch p b, p)).1).getD j 0 ≤ min (i + 1 + rest.length) j := h
        _ ≤ min (i + (rest.length + 1)) j := by omega
    · intro j
      have h := this.2 j
      simp only [List.foldl_cons]
      calc ((rest.foldl (fun pc ch => (lcsRow ch pc.1 b, pc.1))
              (lcsRow ch p b, p)).2).getD j 0 ≤ min (i + 1 + rest.length) j := h
        _ ≤ min (i + (rest.length + 1)) j := by omega

/-- Both buffers of lcsRun are bounded entrywise by min(|a|, index). -/
theorem lcsRun_bound (a b : List Char) :
    (∀ j, (lcsRun a b).1.getD j 0 ≤ min a.length j) ∧
    (∀ j, (lcsRun a b).2.getD j 0 ≤ min a.length j) := by
  have h0 : ∀ j, (List.replicate (b.length + 1) (0 : Nat)).getD j 0 ≤ min 0 j := by
    intro j
    have hz : (List.replicate (b.length + 1) (0 : Nat)).getD j 0 = 0 := by
      simp [List.getD]
    omega
  have := lcsRun_bound_aux b a (List.replicate (b.length + 1) 0)
    (List.replicate (b.length + 1) 0) 0 h0 h0
  simpa [lcsRun] using this

/-- Both copies of lengthOfLCS return 0 when either length is ≤ 0. -/
theorem lengthOfLCS_nonpos (strA : List Char) (offsetA lenA : Int)
    (strB : List Char) (offsetB lenB : Int) (h : lenA ≤ 0 ∨ lenB ≤ 0) :
    lengthOfLCSmatch strA offsetA lenA strB offsetB lenB = 0 ∧
    lengthOfLCSpattern strA offsetA lenA strB offsetB lenB = 0 := by
  refine ⟨?_, ?_⟩
  · unfold lengthOfLCSmatch
    rw [if_pos h]
  · unfold lengthOfLCSpattern
    rw [if_pos h]

/-- Both copies of lengthOfLCS return a value bounded by min(lenA, lenB),
    for arbitrary arguments with positive lengths. -/
theorem lengthOfLCS_le_min (strA : List Char) (offsetA lenA : Int)
    (strB : List Char) (offsetB lenB : Int) (h1 : 0 < lenA) (h2 : 0 < lenB) :
    (lengthOfLCSmatch strA offsetA lenA strB offsetB lenB : Int)
        ≤ min lenA lenB ∧
    (lengthOfLCSpattern strA offsetA lenA strB offsetB lenB : Int)
        ≤ min lenA lenB := by
  have hbound1 := (lcsRun_bound ((strA.drop offsetA.toNat).take lenA.toNat)
    ((strB.drop offsetB.toNat).take lenB.toNat)).1 lenB.toNat
  have hbound2 := (lcsRun_bound ((strA.drop offsetA.toNat).take lenA.toNat)
    ((strB.drop offsetB.toNat).take lenB.toNat)).2 lenB.toNat
  have hle : ((strA.drop offsetA.toNat).take lenA.toNat).length ≤ lenA.toNat :=
    List.length_take_le lenA.toNat (strA.drop offsetA.toNat)
  constructor
  · unfold lengthOfLCSmatch
    rw [if_neg (by omega)]
    omega
  · unfold lengthOfLCSpattern
    rw [if_neg (by omega)]
    omega

theorem lcsRowAux_length (c : Char) :
    ∀ (bs : List Char) (ps : List Nat) (cur : Nat),
      bs.length + 1 ≤ ps.length → (lcsRowAux c ps bs cur).length = bs.length := by
  intro bs
  induction bs with
  | nil =>
    intro ps cur _
    cases ps with
    | nil => simp [lcsRowAux]
    | cons p0 pt => cases pt <;> simp [lcsRowAux]
  | cons bj bt ih =>
    intro ps cur hlen
    match ps, hlen with
    | p0 :: p1 :: ps', hlen2 =>
      simp only [lcsRowAux, List.length_cons]
      rw [ih (p1 :: ps') _ (by simp only [List.length_cons] at hlen2 ⊢; omega)]

theorem lcsRow_length (c : Char) (prev : List Nat) (b : List Char)
    (h : prev.length = b.length + 1) :
    (lcsRow c prev b).length = b.length + 1 := by
  simp [lcsRow, lcsRowAux_length c b prev 0 (by omega)]

theorem lcsRowAux_diag (c : Char) :
    ∀ (bs : List Char) (ps : List Nat) (cur : Nat) (j : Nat),
      j < bs.length → bs.length + 1 ≤ ps.length → c = bs.getD j ' ' →
      ps.getD j 0 + 1 ≤ (lcsRowAux c ps bs cur).getD j 0 := by
  intro bs
  induction bs with
  | nil => intro ps cur j hj; simp at hj
  | cons bj bt ih =>
    intro ps cur j hj hlen hc
    match ps, hlen with
    | p0 :: p1 :: ps', hlen2 =>
      cases j with
      | zero =>
        simp only [List.getD_cons_zero] at hc ⊢
        simp [lcsRowAux, if_pos hc.symm, hc]
      | succ j' =>
        simp only [List.getD_cons_succ] at hc ⊢
        have := ih (p1 :: ps') (if c = bj then p0 + 1 else max cur p1) j'
          (by simp only [List.length_cons] at hj ⊢; omega)
          (by simp only [List.length_cons] at hlen2 ⊢; omega) hc
        simpa [lcsRowAux] using this

theorem lcsRun_diag (b : List Char) :
    ∀ (rem : List Char) (i : Nat) (p cur : List Nat),
      rem = b.drop i → p.length = b.length + 1 → i ≤ p.getD i 0 →
      i + rem.length = b.length →
      b.length ≤
        (rem.foldl (fun pc ch => (lcsRow ch pc.1 b, pc.1)) (p, cur)).1.getD
          b.length 0 := by
  intro rem
  induction rem with
  | nil =>
    intro i p cur _ _ hdiag hlen
    simp only [List.foldl_nil]
    simp only [List.length_nil, Nat.add_zero] at hlen
    subst hlen
    exact hdiag
  | cons ch rest ih =>
    intro i p cur hrem hplen hdiag hlen
    have hi : i < b.length := by
      have := congrArg List.length hrem
      simp [List.length_drop] at this
      omega
    rw [List.drop_eq_getElem_cons hi] at hrem
    simp only [List.cons.injEq] at hrem
    have hch : ch = b[i] := hrem.1
    have hrest : rest = b.drop (i + 1) := hrem.2
    simp only [List.foldl_cons]
    have hdiag' : i + 1 ≤ (lcsRow ch p b).getD (i + 1) 0 := by
      have haux := lcsRowAux_diag ch b p 0 i hi (by omega)
        (by rw [List.getD_eq_getElem _ _ hi]; exact hch)
      have hcons : (lcsRow ch p b).getD (i + 1) 0 =
          (lcsRowAux ch p b 0).getD i 0 := by
        simp [lcsRow]
      omega
    have hlen' : i + 1 + rest.length = b.length := by
      simp only [List.length_cons] at hlen
      omega
    exact ih (i + 1) (lcsRow ch p b) p hrest
      (lcsRow_length ch p b hplen) hdiag' hlen'

/-- The match.cpp copy of lengthOfLCS satisfies lcs(A, A) = length of A. -/
theorem lengthOfLCSmatch_self (a : List Char) :
    lengthOfLCSmatch a 0 (a.length : Int) a 0 (a.length : Int) = a.length := by
  rcases Nat.eq_zero_or_pos a.length with hz | hpos
  · unfold lengthOfLCSmatch
    rw [if_pos (by omega)]
    omega
  · unfold lengthOfLCSmatch
    rw [if_neg (by omega)]
    have hsub : ((a.drop (0 : Int).toNat).take (a.length : Int).toNat) = a := by
      simp
    rw [hsub]
    have hub := (lcsRun_bound a a).1 (a.length : Int).toNat
    have hlb := lcsRun_diag a a 0 (List.replicate (a.length + 1) 0)
      (List.replicate (a.length + 1) 0) (by simp) (by simp) (by simp) (by simp)
    unfold lcsRun at hub ⊢
    simp only [Int.toNat_natCast] at hub ⊢
    omega

/-- C1: the repository holds two copies of lengthOfLCS.  On the
    concrete input strA = strB = "A", offsets 0, lengths 1, the match.cpp
    copy returns 1 = |A| as the claim requires, but the pattern.cpp copy
    returns 0, because after the final buffer swap it reads the result from
    current[lenB] (the next-to-last row) instead of previous[lenB]. -/
theorem lengthOfLCS_divergence :
    lengthOfLCSmatch ['A'] 0 1 ['A'] 0 1 = 1 ∧
    lengthOfLCSpattern ['A'] 0 1 ['A'] 0 1 = 0 := by
  constructor <;> rfl

/-- std::string::find for a single character: position of its first
    occurrence, if any. -/
def strFind (s : List Char) (c : Char) : Option Nat :=
  match s with
  | [] => none
  | ch :: rest => if ch = c then some 0 else (strFind rest c).map (· + 1)

/-- The Pattern record from pattern.h: name, delimiter-stripped sequence,
    raw display sequence, number of bases left of the first delimiter,
    number of bases right of the second delimiter, and the brace flag. -/
structure Pattern where
  name : List Char
  sequence : List Char
  displaySequence : List Char
  leftBases : Nat
  rightBases : Nat
  hasBraces : Bool
deriving DecidableEq

/-- Pattern::Pattern from pattern.cpp lines 73-104.  The constructor throws
    on an invalid display sequence, modelled by none.  It first looks for
    both ']' and '['; only when one of them is absent does it look for '}'
    and '{'.  With first-occurrence positions d1, d2 of the selected pair it
    rejects when d1 = 0, d2 is the last position, or d1 > d2, and otherwise
    strips the two delimiter positions out of the display sequence. -/
def mkPattern (inName inSequence : List Char) : Option Pattern :=
  let found :=
    match strFind inSequence ']', strFind inSequence '[' with
    | some d1, some d2 => some (d1, d2, false)
    | _, _ =>
      match strFind inSequence '}', strFind inSequence '{' with
      | some d1, some d2 => some (d1, d2, true)
      | _, _ => none
  match found with
  | none => none
  | some (d1, d2, braces) =>
    if d1 = 0 ∨ d2 = inSequence.length - 1 ∨ d2 < d1 then none
    else
      some { name := inName
             sequence := inSequence.take d1 ++
               ((inSequence.drop (d1 + 1)).take (d2 - d1 - 1)) ++
               ((inSequence.drop (d2 + 1)).take (inSequence.length - 1 - d2))
             displaySequence := inSequence
             leftBases := d1
             rightBases := inSequence.length - 1 - d2
             hasBraces := braces }

/-- i is the position of the first occurrence of c in s. -/
def firstOccurrence (s : List Char) (c : Char) (i : Nat) : Prop :=
  i < s.length ∧ s.getD i ' ' = c ∧ ∀ j, j < i → s.getD j ' ' ≠ c

instance (s : List Char) (c : Char) (i : Nat) :
    Decidable (firstOccurrence s c i) := by
  unfold firstOccurrence
  infer_instance

theorem strFind_some_iff (c : Char) :
    ∀ (s : List Char) (i : Nat), strFind s c = some i ↔ firstOccurrence s c i := by
  intro s
  induction s with
  | nil => intro i; simp [strFind, firstOccurrence]
  | cons ch rest ih =>
    intro i
    by_cases hch : ch = c
    · subst hch
      simp only [strFind, if_pos rfl]
      constructor
      · rintro h
        injection h with h
        subst h
        exact ⟨by simp, by simp, by omega⟩
      · rintro ⟨_, _, hnone⟩
        rcases Nat.eq_zero_or_pos i with rfl | hpos
        · rfl
        · exact absurd (by simp) (hnone 0 hpos)
    · simp only [strFind, if_neg hch]
      constructor
      · intro h
        rcases Option.map_eq_some'.mp h with ⟨i', hi', rfl⟩
        rcases (ih i').mp hi' with ⟨h1, h2, h3⟩
        refine ⟨by simpa using h1, by simpa using h2, ?_⟩
        intro j hj
        cases j with
        | zero => simpa using hch
        | succ j' =>
          simpa using h3 j' (by omega)
      · rintro ⟨h1, h2, h3⟩
        cases i with
        | zero => simp at h2; exact absurd h2 hch
        | succ i' =>
          have : strFind rest c = some i' := by
            apply (ih i').mpr
            refine ⟨by simpa using h1, by simpa using h2, ?_⟩
            intro j hj
            simpa using h3 (j + 1) (by omega)
          simp [this]

theorem strFind_none_iff (c : Char) :
    ∀ (s : List Char), strFind s c = none ↔ c ∉ s := by
  intro s
  induction s with
  | nil => simp [strFind]
  | cons ch rest ih =>
    by_cases hch : ch = c
    · subst hch
      simp [strFind]
    · simp only [strFind, if_neg hch, Option.map_eq_none', List.mem_cons]
      rw [ih]
      constructor
      · intro h hmem
        rcases hmem with h1 | h2
        · exact hch h1.symm
        · exact h h2
      · intro h hmem
        exact h (Or.inr hmem)

theorem decompose_two (ds : List Char) (d1 d2 : Nat) (h1 : d1 < d2)
    (h2 : d2 < ds.length) :
    ds = ds.take d1 ++ ds.getD d1 ' ' ::
      (((ds.drop (d1 + 1)).take (d2 - d1 - 1)) ++ ds.getD d2 ' ' ::
        ds.drop (d2 + 1)) := by
  have hd1 : d1 < ds.length := by omega
  have e1 : ds.take d1 ++ ds.drop d1 = ds := List.take_append_drop d1 ds
  have e2 : ds.drop d1 = ds.getD d1 ' ' :: ds.drop (d1 + 1) := by
    rw [List.getD_eq_getElem _ _ hd1]
    exact List.drop_eq_getElem_cons hd1
  have e3 : (ds.drop (d1 + 1)).take (d2 - d1 - 1) ++
      (ds.drop (d1 + 1)).drop (d2 - d1 - 1) = ds.drop (d1 + 1) :=
    List.take_append_drop _ _
  have e4 : (ds.drop (d1 + 1)).drop (d2 - d1 - 1) = ds.drop d2 := by
    rw [List.drop_drop]
    congr 1
    omega
  have e5 : ds.drop d2 = ds.getD d2 ' ' :: ds.drop (d2 + 1) := by
    rw [List.getD_eq_getElem _ _ h2]
    exact List.drop_eq_getElem_cons h2
  calc ds = ds.take d1 ++ ds.drop d1 := e1.symm
    _ = ds.take d1 ++ (ds.getD d1 ' ' :: ds.drop (d1 + 1)) := by rw [e2]
    _ = ds.take d1 ++ (ds.getD d1 ' ' ::
          ((ds.drop (d1 + 1)).take (d2 - d1 - 1) ++
            (ds.drop (d1 + 1)).drop (d2 - d1 - 1))) := by rw [e3]
    _ = ds.take d1 ++ ds.getD d1 ' ' ::
          (((ds.drop (d1 + 1)).take (d2 - d1 - 1)) ++ ds.getD d2 ' ' ::
            ds.drop (d2 + 1)) := by rw [e4, e5]

/-- The success condition of the Pattern constructor, stated over first
    occurrences: the bracket pair is selected whenever both ']' and '['
    occur somewhere; otherwise the brace pair is selected; the selected
    pair's first delimiter must not sit at position 0, its second delimiter
    must not sit at the last position, and the first must precede the
    second. -/
def patternSuccessCondition (ds : List Char) : Prop :=
  (∃ d1 d2, firstOccurrence ds ']' d1 ∧ firstOccurrence ds '[' d2 ∧
     d1 ≠ 0 ∧ d2 ≠ ds.length - 1 ∧ d1 < d2) ∨
  (¬ (']' ∈ ds ∧ '[' ∈ ds) ∧
   ∃ d1 d2, firstOccurrence ds '}' d1 ∧ firstOccurrence ds '{' d2 ∧
     d1 ≠ 0 ∧ d2 ≠ ds.length - 1 ∧ d1 < d2)

theorem mkPattern_decompose (nm ds : List Char) (d1 d2 : Nat) (c1 c2 : Char)
    (braces : Bool) (hc1 : ds.getD d1 ' ' = c1) (hc2 : ds.getD d2 ' ' = c2)
    (hne : c1 ≠ c2) (hd2 : d2 < ds.length) (hord : ¬ d2 < d1) (h0 : d1 ≠ 0)
    (hlast : d2 ≠ ds.length - 1)
    (p : Pattern)
    (hp : p = { name := nm
                sequence := ds.take d1 ++
                  ((ds.drop (d1 + 1)).take (d2 - d1 - 1)) ++
                  ((ds.drop (d2 + 1)).take (ds.length - 1 - d2))
                displaySequence := ds
                leftBases := d1
                rightBases := ds.length - 1 - d2
                hasBraces := braces }) :
    ∃ L M R, ds = L ++ c1 :: (M ++ c2 :: R) ∧
      p.displaySequence = ds ∧ p.name = nm ∧
      p.sequence = L ++ M ++ R ∧
      p.leftBases = L.length ∧ p.rightBases = R.length ∧
      p.sequence.length = p.leftBases + M.length + p.rightBases ∧
      L ≠ [] ∧ R ≠ [] ∧ p.hasBraces = braces := by
  have hlt : d1 < d2 := by
    rcases Nat.lt_or_ge d1 d2 with h | h
    · exact h
    · have : d1 = d2 := by omega
      subst this
      rw [hc1] at hc2
      exact absurd hc2 hne
  have hRfull : (ds.drop (d2 + 1)).take (ds.length - 1 - d2) =
      ds.drop (d2 + 1) := by
    apply List.take_of_length_le
    rw [List.length_drop]
    omega
  refine ⟨ds.take d1, (ds.drop (d1 + 1)).take (d2 - d1 - 1),
          ds.drop (d2 + 1), ?_, ?_, ?_, ?_, ?_, ?_, ?_, ?_, ?_, ?_⟩
  · have := decompose_two ds d1 d2 hlt hd2
    rw [hc1, hc2] at this
    exact this
  · rw [hp]
  · rw [hp]
  · rw [hp, hRfull]
  · rw [hp]
    simp only [List.length_take]
    omega
  · rw [hp]
    simp only [List.length_drop]
    omega
  · rw [hp, hRfull]
    simp only [List.length_append, List.length_take, List.length_drop]
    omega
  · have : (ds.take d1).length = d1 := by
      simp only [List.length_take]
      omega
    intro hnil
    rw [hnil] at this
    simp at this
    omega
  · have : (ds.drop (d2 + 1)).length = ds.length - (d2 + 1) := List.length_drop _ _
    intro hnil
    rw [hnil] at this
    simp at this
    omega
  · rw [hp]

theorem firstOccurrence_mem {ds : List Char} {c : Char} {i : Nat}
    (h : firstOccurrence ds c i) : c ∈ ds := by
  obtain ⟨h1, h2, _⟩ := h
  rw [List.getD_eq_getElem _ _ h1] at h2
  rw [← h2]
  exact List.getElem_mem h1

theorem firstOccurrence_lt {ds : List Char} {c1 c2 : Char} {i j : Nat}
    (hne : c1 ≠ c2) (h1 : firstOccurrence ds c1 i) (h2 : firstOccurrence ds c2 j)
    (hord : ¬ j < i) : i < j := by
  rcases Nat.lt_or_ge i j with h | h
  · exact h
  · have hij : i = j := by omega
    subst hij
    have e1 : ds.getD i ' ' = c1 := h1.2.1
    have e2 : ds.getD i ' ' = c2 := h2.2.1
    exact (hne (e1.symm.trans e2)).elim

theorem mkPattern_success_iff (nm ds : List Char) :
    (∃ p, mkPattern nm ds = some p) ↔ patternSuccessCondition ds := by
  rcases hb1 : strFind ds ']' with _ | d1
  · rcases hc1 : strFind ds '}' with _ | e1
    · -- no ']' and no '}': both branches fail
      simp only [mkPattern, hb1, hc1]
      constructor
      · rintro ⟨p, hp⟩
        rcases hf2 : strFind ds '[' with _ | x <;> simp [hf2] at hp
      · rintro (⟨a, b, ha, hb, _⟩ | ⟨hnot, a, b, ha, hb, _⟩)
        · rw [← strFind_some_iff] at ha
          rw [hb1] at ha
          exact absurd ha (by simp)
        · rw [← strFind_some_iff] at ha
          rw [hc1] at ha
          exact absurd ha (by simp)
    · rcases hc2 : strFind ds '{' with _ | e2
      · -- no ']' and no '{': both branches fail
        simp only [mkPattern, hb1, hc1, hc2]
        constructor
        · rintro ⟨p, hp⟩
          rcases hf2 : strFind ds '[' with _ | x <;> simp [hf2] at hp
        · rintro (⟨a, b, ha, hb, _⟩ | ⟨hnot, a, b, ha, hb, _⟩)
          · rw [← strFind_some_iff] at ha
            rw [hb1] at ha
            exact absurd ha (by simp)
          · rw [← strFind_some_iff] at hb
            rw [hc2] at hb
            exact absurd hb (by simp)
      · -- no ']': brace branch selected with positions e1, e2
        have hm1 := (strFind_some_iff '}' ds e1).mp hc1
        have hm2 := (strFind_some_iff '{' ds e2).mp hc2
        have hnotbr : ¬ (']' ∈ ds ∧ '[' ∈ ds) := by
          rintro ⟨hmem, _⟩
          exact (strFind_none_iff ']' ds).mp hb1 hmem
        simp only [mkPattern, hb1, hc1, hc2]
        by_cases hcond : e1 = 0 ∨ e2 = ds.length - 1 ∨ e2 < e1
        · rw [if_pos hcond]
          constructor
          · rintro ⟨p, hp⟩
            simp at hp
          · rintro (⟨a, b, ha, hb, _⟩ | ⟨_, a, b, ha, hb, h0, hlast, hlt⟩)
            · exact absurd (firstOccurrence_mem ha)
                ((strFind_none_iff ']' ds).mp hb1)
            · rw [← strFind_some_iff, hc1] at ha
              rw [← strFind_some_iff, hc2] at hb
              injection ha with ha
              injection hb with hb
              subst ha; subst hb
              omega
        · rw [if_neg hcond]
          push_neg at hcond
          constructor
          · rintro ⟨p, hp⟩
            refine Or.inr ⟨hnotbr, e1, e2, hm1, hm2, hcond.1, hcond.2.1, ?_⟩
            exact firstOccurrence_lt (by decide) hm1 hm2 (by omega)
          · intro _
            exact ⟨_, rfl⟩
  · rcases hb2 : strFind ds '[' with _ | d2
    · -- ']' present but '[' absent: brace branch
      rcases hc1 : strFind ds '}' with _ | e1
      · simp only [mkPattern, hb1, hb2, hc1]
        constructor
        · rintro ⟨p, hp⟩
          simp at hp
        · rintro (⟨a, b, ha, hb, _⟩ | ⟨hnot, a, b, ha, hb, _⟩)
          · rw [← strFind_some_iff, hb2] at hb
            exact absurd hb (by simp)
          · rw [← strFind_some_iff, hc1] at ha
            exact absurd ha (by simp)
      · rcases hc2 : strFind ds '{' with _ | e2
        · simp only [mkPattern, hb1, hb2, hc1, hc2]
          constructor
          · rintro ⟨p, hp⟩
            simp at hp
          · rintro (⟨a, b, ha, hb, _⟩ | ⟨hnot, a, b, ha, hb, _⟩)
            · rw [← strFind_some_iff, hb2] at hb
              exact absurd hb (by simp)
            · rw [← strFind_some_iff, hc2] at hb
              exact absurd hb (by simp)
        · have hm1 := (strFind_some_iff '}' ds e1).mp hc1
          have hm2 := (strFind_some_iff '{' ds e2).mp hc2
          have hnotbr : ¬ (']' ∈ ds ∧ '[' ∈ ds) := by
            rintro ⟨_, hmem⟩
            exact (strFind_none_iff '[' ds).mp hb2 hmem
          simp only [mkPattern, hb1, hb2, hc1, hc2]
          by_cases hcond : e1 = 0 ∨ e2 = ds.length - 1 ∨ e2 < e1
          · rw [if_pos hcond]
            constructor
            · rintro ⟨p, hp⟩
              simp at hp
            · rintro (⟨a, b, ha, hb, _⟩ | ⟨_, a, b, ha, hb, h0, hlast, hlt⟩)
              · rw [← strFind_some_iff, hb2] at hb
                exact absurd hb (by simp)
              · rw [← strFind_some_iff, hc1] at ha
                rw [← strFind_some_iff, hc2] at hb
                injection ha with ha
                injection hb with hb
                subst ha; subst hb
                omega
          · rw [if_neg hcond]
            push_neg at hcond
            constructor
            · rintro ⟨p, hp⟩
              refine Or.inr ⟨hnotbr, e1, e2, hm1, hm2, hcond.1, hcond.2.1, ?_⟩
              exact firstOccurrence_lt (by decide) hm1 hm2 (by omega)
            · intro _
              exact ⟨_, rfl⟩
    · -- both ']' and '[' present: bracket branch with positions d1, d2
      have hm1 := (strFind_some_iff ']' ds d1).mp hb1
      have hm2 := (strFind_some_iff '[' ds d2).mp hb2
      simp only [mkPattern, hb1, hb2]
      by_cases hcond : d1 = 0 ∨ d2 = ds.length - 1 ∨ d2 < d1
      · rw [if_pos hcond]
        constructor
        · rintro ⟨p, hp⟩
          simp at hp
        · rintro (⟨a, b, ha, hb, h0, hlast, hlt⟩ | ⟨hnot, _⟩)
          · rw [← strFind_some_iff, hb1] at ha
            rw [← strFind_some_iff, hb2] at hb
            injection ha with ha
            injection hb with hb
            subst ha; subst hb
            omega
          · exact (hnot ⟨firstOccurrence_mem hm1, firstOccurrence_mem hm2⟩).elim
      · rw [if_neg hcond]
        push_neg at hcond
        constructor
        · rintro ⟨p, hp⟩
          refine Or.inl ⟨d1, d2, hm1, hm2, hcond.1, hcond.2.1, ?_⟩
          exact firstOccurrence_lt (by decide) hm1 hm2 (by omega)
        · intro _
          exact ⟨_, rfl⟩

theorem mkPattern_some_decompose (nm ds : List Char) (p : Pattern)
    (hp : mkPattern nm ds = some p) :
    ∃ L M R c1 c2, ds = L ++ c1 :: (M ++ c2 :: R) ∧ p.displaySequence = ds ∧
      p.name = nm ∧ p.sequence = L ++ M ++ R ∧ p.leftBases = L.length ∧
      p.rightBases = R.length ∧
      p.sequence.length = p.leftBases + M.length + p.rightBases ∧
      L ≠ [] ∧ R ≠ [] ∧
      ((p.hasBraces = false ∧ c1 = ']' ∧ c2 = '[') ∨
       (p.hasBraces = true ∧ c1 = '}' ∧ c2 = '{')) := by
  rcases hb1 : strFind ds ']' with _ | d1
  · rcases hc1 : strFind ds '}' with _ | e1
    · simp only [mkPattern, hb1, hc1] at hp
      rcases hf2 : strFind ds '[' with _ | x <;> simp [hf2] at hp
    · rcases hc2 : strFind ds '{' with _ | e2
      · simp only [mkPattern, hb1, hc1, hc2] at hp
        rcases hf2 : strFind ds '[' with _ | x <;> simp [hf2] at hp
      · have hm1 := (strFind_some_iff '}' ds e1).mp hc1
        have hm2 := (strFind_some_iff '{' ds e2).mp hc2
        simp only [mkPattern, hb1, hc1, hc2] at hp
        by_cases hcond : e1 = 0 ∨ e2 = ds.length - 1 ∨ e2 < e1
        · rw [if_pos hcond] at hp
          simp at hp
        · rw [if_neg hcond] at hp
          push_neg at hcond
          injection hp with hp
          obtain ⟨L, M, R, hds, hdisp, hname, hseq, hleft, hright, hlen, hL,
              hR, hbr⟩ := mkPattern_decompose nm ds e1 e2 '}' '{' true
            hm1.2.1 hm2.2.1 (by decide) hm2.1 (by omega) hcond.1 hcond.2.1
            p hp.symm
          exact ⟨L, M, R, '}', '{', hds, hdisp, hname, hseq, hleft, hright,
            hlen, hL, hR, Or.inr ⟨hbr, rfl, rfl⟩⟩
  · rcases hb2 : strFind ds '[' with _ | d2
    · rcases hc1 : strFind ds '}' with _ | e1
      · simp only [mkPattern, hb1, hb2, hc1] at hp
        simp at hp
      · rcases hc2 : strFind ds '{' with _ | e2
        · simp only [mkPattern, hb1, hb2, hc1, hc2] at hp
          simp at hp
        · have hm1 := (strFind_some_iff '}' ds e1).mp hc1
          have hm2 := (strFind_some_iff '{' ds e2).mp hc2
          simp only [mkPattern, hb1, hb2, hc1, hc2] at hp
          by_cases hcond : e1 = 0 ∨ e2 = ds.length - 1 ∨ e2 < e1
          · rw [if_pos hcond] at hp
            simp at hp
          · rw [if_neg hcond] at hp
            push_neg at hcond
            injection hp with hp
            obtain ⟨L, M, R, hds, hdisp, hname, hseq, hleft, hright, hlen, hL,
                hR, hbr⟩ := mkPattern_decompose nm ds e1 e2 '}' '{' true
              hm1.2.1 hm2.2.1 (by decide) hm2.1 (by omega) hcond.1 hcond.2.1
              p hp.symm
            exact ⟨L, M, R, '}', '{', hds, hdisp, hname, hseq, hleft, hright,
              hlen, hL, hR, Or.inr ⟨hbr, rfl, rfl⟩⟩
    · have hm1 := (strFind_some_iff ']' ds d1).mp hb1
      have hm2 := (strFind_some_iff '[' ds d2).mp hb2
      simp only [mkPattern, hb1, hb2] at hp
      by_cases hcond : d1 = 0 ∨ d2 = ds.length - 1 ∨ d2 < d1
      · rw [if_pos hcond] at hp
        simp at hp
      · rw [if_neg hcond] at hp
        push_neg at hcond
        injection hp with hp
        obtain ⟨L, M, R, hds, hdisp, hname, hseq, hleft, hright, hlen, hL,
            hR, hbr⟩ := mkPattern_decompose nm ds d1 d2 ']' '[' false
          hm1.2.1 hm2.2.1 (by decide) hm2.1 (by omega) hcond.1 hcond.2.1
          p hp.symm
        exact ⟨L, M, R, ']', '[', hds, hdisp, hname, hseq, hleft, hright,
          hlen, hL, hR, Or.inl ⟨hbr, rfl, rfl⟩⟩

/-- C4 (amended): constructing a Pattern succeeds iff the bracket pair is
    selected (both ']' and '[' occur; this takes precedence) or, failing
    that, the brace pair is selected (both '}' and '{' occur), and the
    selected pair's first-occurrence positions d1, d2 satisfy d1 ≠ 0,
    d2 not last, d1 < d2.  On success, the display sequence splits as
    L ++ c1 :: M ++ c2 :: R around the two selected delimiter occurrences,
    sequence = L ++ M ++ R (the display with those two characters removed),
    leftBases = |L|, rightBases = |R|, and
    |sequence| = leftBases + middleBases + rightBases with middleBases =
    |M|. -/
theorem mkPattern_ok (nm ds : List Char) :
    ((∃ p, mkPattern nm ds = some p) ↔ patternSuccessCondition ds) ∧
    (∀ p, mkPattern nm ds = some p →
      ∃ L M R c1 c2, ds = L ++ c1 :: (M ++ c2 :: R) ∧
        p.displaySequence = ds ∧ p.name = nm ∧ p.sequence = L ++ M ++ R ∧
        p.leftBases = L.length ∧ p.rightBases = R.length ∧
        p.sequence.length = p.leftBases + M.length + p.rightBases ∧
        L ≠ [] ∧ R ≠ [] ∧
        ((p.hasBraces = false ∧ c1 = ']' ∧ c2 = '[') ∨
         (p.hasBraces = true ∧ c1 = '}' ∧ c2 = '{'))) :=
  ⟨mkPattern_success_iff nm ds, fun p hp => mkPattern_some_decompose nm ds p hp⟩

/-- C4 counterexample: the display sequence "A]C[T}G{A" contains both a
    ]...[ delimiter pair (positions 1 and 3) and a }...{ delimiter pair
    (positions 5 and 7), yet the Pattern constructor succeeds, refuting the
    claim that success requires exactly one of the two pairs to appear. -/
theorem mkPattern_counterexample :
    ['A', ']', 'C', '[', 'T', '}', 'G', '{', 'A'].getD 1 ' ' = ']' ∧
    ['A', ']', 'C', '[', 'T', '}', 'G', '{', 'A'].getD 3 ' ' = '[' ∧
    ['A', ']', 'C', '[', 'T', '}', 'G', '{', 'A'].getD 5 ' ' = '}' ∧
    ['A', ']', 'C', '[', 'T', '}', 'G', '{', 'A'].getD 7 ' ' = '{' ∧
    (mkPattern ['P'] ['A', ']', 'C', '[', 'T', '}', 'G', '{', 'A']).isSome =
      true := by
  decide

/-- Witness for C4 on the display sequence "G]C[T". -/
theorem mkPattern_ok_witness :
    (∃ p, mkPattern ['P'] ['G', ']', 'C', '[', 'T'] = some p) ∧
    (∃ p, mkPattern ['P'] ['G', ']', 'C', '[', 'T'] = some p ∧
      ∃ L M R c1 c2,
        ['G', ']', 'C', '[', 'T'] = L ++ c1 :: (M ++ c2 :: R) ∧
        p.displaySequence = ['G', ']', 'C', '[', 'T'] ∧ p.name = ['P'] ∧
        p.sequence = L ++ M ++ R ∧
        p.leftBases = L.length ∧ p.rightBases = R.length ∧
        p.sequence.length = p.leftBases + M.length + p.rightBases ∧
        L ≠ [] ∧ R ≠ [] ∧
        ((p.hasBraces = false ∧ c1 = ']' ∧ c2 = '[') ∨
         (p.hasBraces = true ∧ c1 = '}' ∧ c2 = '{'))) :=
  ⟨(mkPattern_ok ['P'] ['G', ']', 'C', '[', 'T']).1.mpr
      (Or.inl ⟨1, 3, by decide, by decide, by decide, by decide, by decide⟩),
   ⟨{ name := ['P'], sequence := ['G', 'C', 'T'],
      displaySequence := ['G', ']', 'C', '[', 'T'], leftBases := 1,
      rightBases := 1, hasBraces := false }, by decide,
    (mkPattern_ok ['P'] ['G', ']', 'C', '[', 'T']).2
      { name := ['P'], sequence := ['G', 'C', 'T'],
        displaySequence := ['G', ']', 'C', '[', 'T'], leftBases := 1,
        rightBases := 1, hasBraces := false } (by decide)⟩⟩

/-- splitString from util.cpp: split at every occurrence of the delimiter;
    the number of components is the number of delimiters plus one, and empty
    components are kept.  (The C++ walks the NUL-terminated c_str; lines
    read by getline contain no NUL, so the embedding over the character list
    is exact.) -/
def splitStringAux (delim : Char) : List Char → List Char → List (List Char)
  | [], acc => [acc]
  | ch :: rest, acc =>
    if ch = delim then acc :: splitStringAux delim rest []
    else splitStringAux delim rest (acc ++ [ch])

def splitString (s : List Char) (delim : Char) : List (List Char) :=
  splitStringAux delim s []

/-- readPatterns from pattern.cpp lines 110-133: every line of the file must
    split into exactly two tab-separated columns, and every line (including
    the first) is turned into a Pattern; a wrong column count or an invalid
    display sequence raises an error.  The C++ messages carry the file name;
    the embedding keeps only the fixed message text. -/
def readPatterns : List (List Char) → Except (List Char) (List Pattern)
  | [] => Except.ok []
  | line :: rest =>
    let col := splitString line '\t'
    if col.length ≠ 2 then Except.error ("unexpected #columns".toList)
    else
      match mkPattern (col.getD 0 []) (col.getD 1 []) with
      | none => Except.error (("invalid pattern ".toList) ++ col.getD 1 [])
      | some p =>
        match readPatterns rest with
        | Except.error e => Except.error e
        | Except.ok ps => Except.ok (p :: ps)

/-- C3: readPatterns has no notion of a header line and no annotation
    columns.  The spec-conforming catalog whose first line is the
    tab-separated header columns pattern and sequence is rejected: the
    header line itself is fed to the Pattern constructor, which fails on the
    delimiter-free sequence column.
    A pattern line carrying an extra annotation column is likewise rejected
    for its column count. -/
theorem readPatterns_header_divergence :
    readPatterns ["pattern\tsequence".toList, "P1\tAA]CC[GG".toList] =
      Except.error (("invalid pattern ".toList) ++ "sequence".toList) ∧
    readPatterns ["P1\tAA]CC[GG\tgene1".toList] =
      Except.error ("unexpected #columns".toList) := by
  constructor <;> rfl

/-- namesMatch from pairread.cpp lines 73-87: names of unequal length never
    match; when last > 0 (i.e. the common length is at least 2) and the two
    last characters are '1'/'2' in either order, the names match iff their
    first last characters agree (strncmp on NUL-free names); otherwise the
    names match iff they are equal. -/
def namesMatch (name1 name2 : List Char) : Bool :=
  if name1.length ≠ name2.length then false
  else if 0 < name1.length - 1 ∧
      ((name1.getD (name1.length - 1) ' ' = '1' ∧
        name2.getD (name1.length - 1) ' ' = '2') ∨
       (name1.getD (name1.length - 1) ' ' = '2' ∧
        name2.getD (name1.length - 1) ' ' = '1')) then
    decide (name1.take (name1.length - 1) = name2.take (name1.length - 1))
  else decide (name1 = name2)

theorem getLast?_eq_some_iff_getD (l : List Char) (c : Char)
    (h : 0 < l.length) :
    l.getLast? = some c ↔ l.getD (l.length - 1) ' ' = c := by
  rw [List.getLast?_eq_getElem?]
  rw [List.getElem?_eq_getElem (by omega)]
  rw [List.getD_eq_getElem _ _ (by omega)]
  simp

/-- C9 counterexample: the names "1" and "2" have equal length and differ
    only in that one ends in '1' where the other ends in '2' (their
    length-1 prefixes are both empty), so the claim demands a match, but
    namesMatch returns false: the source requires last > 0, i.e. a length
    of at least 2, before applying the mate-pair rule. -/
theorem namesMatch_counterexample :
    namesMatch ['1'] ['2'] = false ∧
    (['1'] : List Char).length = (['2'] : List Char).length ∧
    (['1'] : List Char).dropLast = (['2'] : List Char).dropLast ∧
    (['1'] : List Char).getLast? = some '1' ∧
    (['2'] : List Char).getLast? = some '2' ∧
    (['1'] : List Char) ≠ ['2'] := by
  decide

/-- C9 (amended): namesMatch returns true iff the names are equal, or they
    have equal length at least 2 and differ only in that one ends in '1'
    where the other ends in '2'. -/
theorem namesMatch_iff (n1 n2 : List Char) :
    namesMatch n1 n2 = true ↔
      (n1 = n2 ∨
       (n1.length = n2.length ∧ 2 ≤ n1.length ∧ n1.dropLast = n2.dropLast ∧
        ((n1.getLast? = some '1' ∧ n2.getLast? = some '2') ∨
         (n1.getLast? = some '2' ∧ n2.getLast? = some '1')))) := by
  unfold namesMatch
  by_cases hlen : n1.length ≠ n2.length
  · rw [if_pos hlen]
    simp only [Bool.false_eq_true, false_iff]
    rintro (rfl | ⟨hl, _⟩)
    · exact hlen rfl
    · exact hlen hl
  · rw [if_neg hlen]
    push_neg at hlen
    by_cases hguard : 0 < n1.length - 1 ∧
        ((n1.getD (n1.length - 1) ' ' = '1' ∧
          n2.getD (n1.length - 1) ' ' = '2') ∨
         (n1.getD (n1.length - 1) ' ' = '2' ∧
          n2.getD (n1.length - 1) ' ' = '1'))
    · rw [if_pos hguard]
      obtain ⟨hpos, hends⟩ := hguard
      have h1pos : 0 < n1.length := by omega
      have h2pos : 0 < n2.length := by omega
      have hne : n1 ≠ n2 := by
        intro heq
        rcases hends with ⟨ha, hb⟩ | ⟨ha, hb⟩ <;>
          · rw [heq] at ha
            rw [hlen] at hb
            rw [ha] at hb
            simp at hb
      rw [decide_eq_true_iff]
      constructor
      · intro htake
        refine Or.inr ⟨hlen, by omega, ?_, ?_⟩
        · rw [List.dropLast_eq_take, List.dropLast_eq_take, ← hlen]
          exact htake
        · rcases hends with ⟨ha, hb⟩ | ⟨ha, hb⟩
          · exact Or.inl ⟨(getLast?_eq_some_iff_getD n1 '1' h1pos).mpr ha,
              (getLast?_eq_some_iff_getD n2 '2' h2pos).mpr (by rw [hlen] at hb; exact hb)⟩
          · exact Or.inr ⟨(getLast?_eq_some_iff_getD n1 '2' h1pos).mpr ha,
              (getLast?_eq_some_iff_getD n2 '1' h2pos).mpr (by rw [hlen] at hb; exact hb)⟩
      · rintro (rfl | ⟨_, _, hdrop, _⟩)
        · exact (hne rfl).elim
        · rw [List.dropLast_eq_take, List.dropLast_eq_take, ← hlen] at hdrop
          exact hdrop
    · rw [if_neg hguard]
      rw [decide_eq_true_iff]
      constructor
      · intro heq
        exact Or.inl heq
      · rintro (rfl | ⟨_, hlen2, hdrop, hends⟩)
        · rfl
        · exfalso
          apply hguard
          have h1pos : 0 < n1.length := by omega
          have h2pos : 0 < n2.length := by omega
          refine ⟨by omega, ?_⟩
          rcases hends with ⟨ha, hb⟩ | ⟨ha, hb⟩
          · exact Or.inl ⟨(getLast?_eq_some_iff_getD n1 '1' h1pos).mp ha,
              by rw [hlen]; exact (getLast?_eq_some_iff_getD n2 '2' h2pos).mp hb⟩
          · exact Or.inr ⟨(getLast?_eq_some_iff_getD n1 '2' h1pos).mp ha,
              by rw [hlen]; exact (getLast?_eq_some_iff_getD n2 '1' h2pos).mp hb⟩

/-- Candidate from match.h: a location (pattern index, offset) plus the read
    length and the number of matching bases (zero marks an unmatched
    mate).  The overlap fields are not involved in best-pair selection. -/
structure Candidate where
  index : Nat
  offset : Int
  length : Int
  matchingBases : Int
deriving DecidableEq

/-- Match from match.h: a pair of candidates for the same pattern. -/
structure PairMatch where
  c1 : Candidate
  c2 : Candidate
deriving DecidableEq

/-- Match::matchingBases from match.h. -/
def PairMatch.matchingBases (m : PairMatch) : Int :=
  m.c1.matchingBases + m.c2.matchingBases

/-- Match::insertSize from match.cpp lines 68-78. -/
def PairMatch.insertSize (m : PairMatch) : Int :=
  if m.c1.matchingBases = 0 then m.c2.length
  else if m.c2.matchingBases = 0 then m.c1.length
  else if m.c1.offset ≤ m.c2.offset then
    max m.c1.length (m.c2.offset - m.c1.offset + m.c2.length)
  else max m.c2.length (m.c1.offset - m.c2.offset + m.c1.length)

/-- The body of the double loop of getBestPair (match.cpp lines 275-297)
    acting on the best-so-far slot: a pair is skipped when its insert size
    exceeds maxInsert or c1.offset - c2.offset exceeds maxTrim; otherwise it
    replaces the slot when it has strictly more matching bases, or equally
    many with a strictly smaller insert size. -/
def bestPairStep (maxInsert maxTrim : Int) (best : Option PairMatch)
    (m : PairMatch) : Option PairMatch :=
  if maxInsert < m.insertSize ∨ maxTrim < m.c1.offset - m.c2.offset then best
  else
    match best with
    | none => some m
    | some b =>
      if b.matchingBases < m.matchingBases ∨
          (m.matchingBases = b.matchingBases ∧ m.insertSize < b.insertSize)
      then some m
      else some b

/-- The same slot update without the rejection guard. -/
def bestPairKeep (best : Option PairMatch) (m : PairMatch) :
    Option PairMatch :=
  match best with
  | none => some m
  | some b =>
    if b.matchingBases < m.matchingBases ∨
        (m.matchingBases = b.matchingBases ∧ m.insertSize < b.insertSize)
    then some m
    else some b

/-- getBestPair from match.cpp lines 261-302, restricted to one pattern
    present in both candidate maps: the nested loops enumerate cv1 × cv2 in
    row-major order and fold the slot update over them. -/
def getBestPairForPattern (cv1 cv2 : List Candidate)
    (maxInsert maxTrim : Int) : Option PairMatch :=
  (cv1.flatMap (fun a => cv2.map (fun b => PairMatch.mk a b))).foldl
    (bestPairStep maxInsert maxTrim) none

/-- The acceptance condition stated by the spec: a pair is rejected iff
    insertSize > maxInsert or c1.offset - c2.offset > maxTrim (the
    difference, not its absolute value). -/
def acceptedPair (maxInsert maxTrim : Int) (m : PairMatch) : Prop :=
  m.insertSize ≤ maxInsert ∧ m.c1.offset - m.c2.offset ≤ maxTrim

instance (maxInsert maxTrim : Int) (m : PairMatch) :
    Decidable (acceptedPair maxInsert maxTrim m) := by
  unfold acceptedPair
  infer_instance

theorem bestPairStep_eq (maxInsert maxTrim : Int) (best : Option PairMatch)
    (m : PairMatch) :
    bestPairStep maxInsert maxTrim best m =
      if acceptedPair maxInsert maxTrim m then bestPairKeep best m else best := by
  unfold bestPairStep bestPairKeep acceptedPair
  by_cases h : maxInsert < m.insertSize ∨ maxTrim < m.c1.offset - m.c2.offset
  · rw [if_pos h, if_neg (by omega)]
  · rw [if_neg h, if_pos (by omega)]

theorem bestFold_guard_eq_filter (maxInsert maxTrim : Int) :
    ∀ (ps : List PairMatch) (acc : Option PairMatch),
      ps.foldl (bestPairStep maxInsert maxTrim) acc =
        (ps.filter (fun m => decide (acceptedPair maxInsert maxTrim m))).foldl
          bestPairKeep acc := by
  intro ps
  induction ps with
  | nil => intro acc; rfl
  | cons m rest ih =>
    intro acc
    by_cases h : acceptedPair maxInsert maxTrim m
    · rw [List.foldl_cons, bestPairStep_eq, if_pos h,
        List.filter_cons_of_pos (by simpa using h), List.foldl_cons]
      exact ih (bestPairKeep acc m)
    · rw [List.foldl_cons, bestPairStep_eq, if_neg h,
        List.filter_cons_of_neg (by simpa using h)]
      exact ih acc

theorem bestPairKeep_fold_spec :
    ∀ (ps : List PairMatch) (acc : Option PairMatch),
      (ps.foldl bestPairKeep acc = none ↔ (acc = none ∧ ps = [])) ∧
      (∀ r, ps.foldl bestPairKeep acc = some r →
        (acc = some r ∨ r ∈ ps) ∧
        (∀ p ∈ ps, p.matchingBases < r.matchingBases ∨
          (p.matchingBases = r.matchingBases ∧ r.insertSize ≤ p.insertSize)) ∧
        (∀ b, acc = some b → b.matchingBases < r.matchingBases ∨
          (b.matchingBases = r.matchingBases ∧ r.insertSize ≤ b.insertSize) ∨
          b = r)) := by
  intro ps
  induction ps with
  | nil =>
    intro acc
    refine ⟨by simp, ?_⟩
    intro r hr
    simp only [List.foldl_nil] at hr
    refine ⟨Or.inl hr, by simp, ?_⟩
    intro b hb
    rw [hr] at hb
    injection hb with hb
    exact Or.inr (Or.inr hb.symm)
  | cons m rest ih =>
    intro acc
    constructor
    · rw [List.foldl_cons]
      constructor
      · intro hnone
        have := ((ih (bestPairKeep acc m)).1).mp hnone
        exfalso
        have hne : bestPairKeep acc m ≠ none := by
          cases acc with
          | none => simp [bestPairKeep]
          | some b =>
            simp only [bestPairKeep]
            split <;> simp
        exact hne this.1
      · rintro ⟨_, h⟩
        simp at h
    · intro r hr
      rw [List.foldl_cons] at hr
      obtain ⟨hsrc, hall, hstep⟩ := (ih (bestPairKeep acc m)).2 r hr
      constructor
      · -- provenance
        rcases hsrc with hs | hs
        · cases acc with
          | none =>
            simp only [bestPairKeep] at hs
            injection hs with hs
            exact Or.inr (by simp [hs])
          | some b =>
            simp only [bestPairKeep] at hs
            rcases ite_eq_iff.mp hs with ⟨_, h2⟩ | ⟨_, h2⟩
            · injection h2 with h2
              exact Or.inr (by simp [h2])
            · injection h2 with h2
              exact Or.inl (by rw [h2])
        · exact Or.inr (List.mem_cons_of_mem m hs)
      constructor
      · -- optimality over m :: rest
        intro p hp
        rcases List.mem_cons.mp hp with rfl | hp'
        · cases acc with
          | none =>
            simp only [bestPairKeep] at hstep
            have := hstep p rfl
            rcases this with h | h | h
            · exact Or.inl h
            · exact Or.inr h
            · rw [h]
              exact Or.inr ⟨rfl, le_refl _⟩
          | some b =>
            simp only [bestPairKeep] at hstep
            by_cases hbet : b.matchingBases < p.matchingBases ∨
                (p.matchingBases = b.matchingBases ∧
                 p.insertSize < b.insertSize)
            · rw [if_pos hbet] at hstep
              have := hstep p rfl
              rcases this with h | h | h
              · exact Or.inl h
              · exact Or.inr h
              · rw [h]
                exact Or.inr ⟨rfl, le_refl _⟩
            · rw [if_neg hbet] at hstep
              have hb := hstep b rfl
              push_neg at hbet
              rcases hb with h | h | h
              · left
                have h1 := hbet.1
                rcases Int.lt_or_le p.matchingBases b.matchingBases with h2 | h2
                · omega
                · have heq : p.matchingBases = b.matchingBases := by omega
                  have h3 := hbet.2 heq
                  omega
              · rcases Int.lt_or_le p.matchingBases b.matchingBases with h2 | h2
                · left; omega
                · have heq : p.matchingBases = b.matchingBases := by omega
                  have h3 := hbet.2 heq
                  right
                  exact ⟨by omega, by omega⟩
              · subst h
                rcases Int.lt_or_le p.matchingBases b.matchingBases with h2 | h2
                · left; exact h2
                · have heq : p.matchingBases = b.matchingBases := by omega
                  have h3 := hbet.2 heq
                  right
                  exact ⟨heq, by omega⟩
        · exact hall p hp'
      · -- the slot clause for the original acc
        intro b hb
        subst hb
        simp only [bestPairKeep] at hstep
        by_cases hbet : b.matchingBases < m.matchingBases ∨
            (m.matchingBases = b.matchingBases ∧ m.insertSize < b.insertSize)
        · rw [if_pos hbet] at hstep
          have hm := hstep m rfl
          rcases hm with h | h | h
          · rcases hbet with h2 | h2
            · left; omega
            · left; omega
          · rcases hbet with h2 | h2
            · left; omega
            · right; left
              exact ⟨by omega, by omega⟩
          · subst h
            rcases hbet with h2 | h2
            · left; exact h2
            · right; left
              exact ⟨by omega, by omega⟩
        · rw [if_neg hbet] at hstep
          exact hstep b rfl

/-- C5: in best-pair selection over the candidates of one pattern present
    in both candidate maps, a pair is rejected iff insertSize > maxInsert or
    c1.offset - c2.offset > maxTrim (the signed difference: the second read
    sitting ahead of the first is unconstrained); among accepted pairs the
    retained match has the greatest combined matchingBases, with ties broken
    to the smaller insertSize; no pair is retained iff no pair is
    accepted. -/
theorem getBestPair_ok (cv1 cv2 : List Candidate) (maxInsert maxTrim : Int) :
    (getBestPairForPattern cv1 cv2 maxInsert maxTrim =
      ((cv1.flatMap (fun a => cv2.map (fun b => PairMatch.mk a b))).filter
        (fun m => decide (acceptedPair maxInsert maxTrim m))).foldl
        bestPairKeep none) ∧
    (getBestPairForPattern cv1 cv2 maxInsert maxTrim = none ↔
      ∀ m ∈ cv1.flatMap (fun a => cv2.map (fun b => PairMatch.mk a b)),
        ¬ acceptedPair maxInsert maxTrim m) ∧
    (∀ r, getBestPairForPattern cv1 cv2 maxInsert maxTrim = some r →
      r ∈ cv1.flatMap (fun a => cv2.map (fun b => PairMatch.mk a b)) ∧
      acceptedPair maxInsert maxTrim r ∧
      ∀ m ∈ cv1.flatMap (fun a => cv2.map (fun b => PairMatch.mk a b)),
        acceptedPair maxInsert maxTrim m →
        m.matchingBases < r.matchingBases ∨
        (m.matchingBases = r.matchingBases ∧
         r.insertSize ≤ m.insertSize)) := by
  have hfold := bestFold_guard_eq_filter maxInsert maxTrim
    (cv1.flatMap (fun a => cv2.map (fun b => PairMatch.mk a b))) none
  refine ⟨hfold, ?_, ?_⟩
  · unfold getBestPairForPattern
    rw [hfold]
    have hspec := bestPairKeep_fold_spec
      ((cv1.flatMap (fun a => cv2.map (fun b => PairMatch.mk a b))).filter
        (fun m => decide (acceptedPair maxInsert maxTrim m))) none
    rw [hspec.1]
    rw [List.filter_eq_nil_iff]
    simp only [true_and, decide_eq_true_eq]
  · intro r hr
    unfold getBestPairForPattern at hr
    rw [hfold] at hr
    have hspec := bestPairKeep_fold_spec
      ((cv1.flatMap (fun a => cv2.map (fun b => PairMatch.mk a b))).filter
        (fun m => decide (acceptedPair maxInsert maxTrim m))) none
    obtain ⟨hsrc, hall, _⟩ := hspec.2 r hr
    have hrmem : r ∈ (cv1.flatMap
        (fun a => cv2.map (fun b => PairMatch.mk a b))).filter
        (fun m => decide (acceptedPair maxInsert maxTrim m)) := by
      rcases hsrc with h | h
      · simp at h
      · exact h
    have hr2 := List.mem_filter.mp hrmem
    refine ⟨hr2.1, by simpa using hr2.2, ?_⟩
    intro m hm hacc
    exact hall m (List.mem_filter.mpr ⟨hm, by simpa using hacc⟩)

/-- Witness for C5: a single accepted candidate pair is retained and is
    optimal among the accepted pairs. -/
theorem getBestPair_ok_witness :
    PairMatch.mk (Candidate.mk 0 0 10 8) (Candidate.mk 0 2 10 7) ∈
      ([Candidate.mk 0 0 10 8].flatMap
        (fun a => [Candidate.mk 0 2 10 7].map (fun b => PairMatch.mk a b))) ∧
    acceptedPair 100 5
      (PairMatch.mk (Candidate.mk 0 0 10 8) (Candidate.mk 0 2 10 7)) ∧
    ∀ m ∈ ([Candidate.mk 0 0 10 8].flatMap
        (fun a => [Candidate.mk 0 2 10 7].map (fun b => PairMatch.mk a b))),
      acceptedPair 100 5 m →
      m.matchingBases <
        (PairMatch.mk (Candidate.mk 0 0 10 8)
          (Candidate.mk 0 2 10 7)).matchingBases ∨
      (m.matchingBases =
        (PairMatch.mk (Candidate.mk 0 0 10 8)
          (Candidate.mk 0 2 10 7)).matchingBases ∧
       (PairMatch.mk (Candidate.mk 0 0 10 8)
          (Candidate.mk 0 2 10 7)).insertSize ≤ m.insertSize) :=
  (getBestPair_ok [Candidate.mk 0 0 10 8] [Candidate.mk 0 2 10 7]
    100 5).2.2 (PairMatch.mk (Candidate.mk 0 0 10 8) (Candidate.mk 0 2 10 7))
    (by decide)

/-- numKmers from kmer.h: 4^k for k ≤ MAX_KMER_LENGTH = 15, else 0. -/
def numKmers (k : Nat) : Nat := if k ≤ 15 then 1 <<< (2 * k) else 0

/-- KmerFinder::find from kmer.cpp lines 135-164, scanning from index i with
    the k-mer under construction and its current length: a defined base
    extends the k-mer (shifted into its 2-bit slot) while len < k, or rolls
    it under the 2k-bit mask once len = k, and a full k-mer is reported with
    start index i - k + 1; an undefined base resets the construction.  All
    reporting callbacks in the repository return true, so the search never
    stops early and the reports form a list. -/
def kmerLoop (k mask : Nat) : List Char → Nat → Nat → Nat → List (Nat × Nat)
  | [], _, _, _ => []
  | ch :: rest, i, kmer, len =>
    if charToBase ch < 4 then
      if len < k then
        if len + 1 = k then
          (kmer ||| (charToBase ch <<< (2 * (k - (len + 1)))), i + 1 - k) ::
            kmerLoop k mask rest (i + 1)
              (kmer ||| (charToBase ch <<< (2 * (k - (len + 1))))) (len + 1)
        else
          kmerLoop k mask rest (i + 1)
            (kmer ||| (charToBase ch <<< (2 * (k - (len + 1))))) (len + 1)
      else
        (((kmer <<< 2) &&& mask) ||| charToBase ch, i + 1 - k) ::
          kmerLoop k mask rest (i + 1) (((kmer <<< 2) &&& mask) ||| charToBase ch)
            len
    else if 0 < len then kmerLoop k mask rest (i + 1) 0 0
    else kmerLoop k mask rest (i + 1) kmer len

/-- The k-mer report stream of a sequence. -/
def kmerReports (s : List Char) (k : Nat) : List (Nat × Nat) :=
  kmerLoop k (numKmers k - 1) s 0 0 0

/-- The 2-bit MSB-first encoding of a base string (the k-mer integer of
    section 3 of the spec). -/
def encodeKmer (l : List Char) : Nat :=
  l.foldl (fun a ch => 4 * a + charToBase ch) 0

/-- The k-mer starting at position p of s. -/
def kmerAt (s : List Char) (p k : Nat) : Nat :=
  encodeKmer ((s.drop p).take k)

/-- Position p starts a complete run of k defined bases in s. -/
def validKmer (s : List Char) (p k : Nat) : Prop :=
  p + k ≤ s.length ∧ ∀ j, j < k → charToBase (s.getD (p + j) 'N') < 4

instance (s : List Char) (p k : Nat) : Decidable (validKmer s p k) := by
  unfold validKmer
  infer_instance

theorem lor_shift_add (a : Nat) :
    ∀ (m b : Nat), b < 2 ^ m → (a <<< m) ||| b = a <<< m + b := by
  intro m
  induction m with
  | zero =>
    intro b hb
    interval_cases b
    simp
  | succ m ih =>
    intro b hb
    have hpow : 2 ^ (m + 1) = 2 * 2 ^ m := by
      rw [Nat.pow_succ]
      omega
    have hb2 : b / 2 < 2 ^ m := by omega
    have hx : a <<< (m + 1) = 2 * (a <<< m) := Nat.shiftLeft_succ a m
    have hdiv : (a <<< (m + 1) ||| b) / 2 = (a <<< m) ||| (b / 2) := by
      rw [Nat.or_div_two]
      congr 1
      omega
    have hIH : (a <<< m) ||| (b / 2) = a <<< m + b / 2 := ih (b / 2) hb2
    have hxmod : a <<< (m + 1) % 2 = 0 := by omega
    have hmod : (a <<< (m + 1) ||| b) % 2 = b % 2 := by
      by_cases h1 : (a <<< (m + 1) ||| b) % 2 = 1
      · have h2 := Nat.or_mod_two_eq_one.mp h1
        omega
      · have h3 : ¬ (a <<< (m + 1) % 2 = 1 ∨ b % 2 = 1) := by
          intro hcon
          exact h1 (Nat.or_mod_two_eq_one.mpr hcon)
        push_neg at h3
        omega
    have hdm := Nat.div_add_mod (a <<< (m + 1) ||| b) 2
    omega

theorem numKmers_eq (k : Nat) (hk : k ≤ 15) : numKmers k = 2 ^ (2 * k) := by
  rw [numKmers, if_pos hk, Nat.one_shiftLeft]

theorem encodeKmer_foldl (l : List Char) :
    ∀ a : Nat, l.foldl (fun x ch => 4 * x + charToBase ch) a =
      a * 4 ^ l.length + l.foldl (fun x ch => 4 * x + charToBase ch) 0 := by
  induction l with
  | nil => intro a; simp
  | cons c t ih =>
    intro a
    rw [List.foldl_cons, List.foldl_cons]
    rw [ih (4 * a + charToBase c), ih (4 * 0 + charToBase c)]
    simp only [List.length_cons, Nat.pow_succ]
    ring

theorem encodeKmer_cons (c : Char) (l : List Char) :
    encodeKmer (c :: l) = charToBase c * 4 ^ l.length + encodeKmer l := by
  simp only [encodeKmer, List.foldl_cons]
  rw [encodeKmer_foldl l (4 * 0 + charToBase c)]
  ring

theorem encodeKmer_append_singleton (l : List Char) (c : Char) :
    encodeKmer (l ++ [c]) = 4 * encodeKmer l + charToBase c := by
  simp [encodeKmer, List.foldl_append]

theorem encodeKmer_lt (l : List Char) (h : ∀ c ∈ l, charToBase c < 4) :
    encodeKmer l < 4 ^ l.length := by
  induction l with
  | nil => simp [encodeKmer]
  | cons c t ih =>
    rw [encodeKmer_cons]
    have hc : charToBase c < 4 := h c (by simp)
    have ht : encodeKmer t < 4 ^ t.length := ih (fun x hx => h x (by simp [hx]))
    have h4 : 4 ^ (c :: t).length = 4 * 4 ^ t.length := by
      simp [List.length_cons, Nat.pow_succ]
      ring
    rw [h4]
    nlinarith

theorem lor_mul_pow_add (a m b : Nat) (hb : b < 2 ^ m) :
    (a * 2 ^ m) ||| b = a * 2 ^ m + b := by
  have := lor_shift_add a m b hb
  rwa [Nat.shiftLeft_eq] at this

theorem slice_defined (s : List Char) (p l : Nat) (hpl : p + l ≤ s.length)
    (h : ∀ j, p ≤ j → j < p + l → charToBase (s.getD j 'N') < 4) :
    ∀ c ∈ (s.drop p).take l, charToBase c < 4 := by
  intro c hc
  rcases List.mem_iff_getElem.mp hc with ⟨n, hn, rfl⟩
  have hn' : n < l := by
    have := hn
    simp only [List.length_take, List.length_drop] at this
    omega
  simp only [List.getElem_take, List.getElem_drop]
  have := h (p + n) (by omega) (by omega)
  rwa [List.getD_eq_getElem _ _ (by omega)] at this

theorem slice_snoc (s : List Char) (p l : Nat) (h : p + l < s.length) :
    (s.drop p).take (l + 1) = (s.drop p).take l ++ [s.getD (p + l) 'N'] := by
  rw [List.take_succ]
  congr 1
  have hl : l < (s.drop p).length := by
    simp only [List.length_drop]
    omega
  rw [List.getElem?_eq_getElem hl]
  simp only [List.getElem_drop, Option.toList_some]
  rw [List.getD_eq_getElem _ _ (by omega)]

theorem slice_cons (s : List Char) (p l : Nat) (hp : p < s.length) :
    (s.drop p).take (l + 1) = s.getD p 'N' :: (s.drop (p + 1)).take l := by
  rw [List.drop_eq_getElem_cons hp, List.take_succ_cons,
    List.getD_eq_getElem _ _ hp]

theorem filterMap_range'_succ_pos {α : Type} (f : Nat → Option α) (i n : Nat)
    (v : α) (h : f i = some v) :
    (List.range' i (n + 1)).filterMap f =
      v :: (List.range' (i + 1) n).filterMap f := by
  rw [List.range'_succ, List.filterMap_cons, h]

theorem filterMap_range'_succ_neg {α : Type} (f : Nat → Option α) (i n : Nat)
    (h : f i = none) :
    (List.range' i (n + 1)).filterMap f =
      (List.range' (i + 1) n).filterMap f := by
  rw [List.range'_succ, List.filterMap_cons, h]

theorem kmerLoop_spec (s : List Char) (k : Nat) (hk : 1 ≤ k) (hk15 : k ≤ 15) :
    ∀ (n i kmer len : Nat),
      i + n = s.length → len ≤ k → len ≤ i →
      (∀ j, i - len ≤ j → j < i → charToBase (s.getD j 'N') < 4) →
      kmer = encodeKmer ((s.drop (i - len)).take len) <<< (2 * (k - len)) →
      (len = k ∨ i - len = 0 ∨ ¬ charToBase (s.getD (i - len - 1) 'N') < 4) →
      kmerLoop k (numKmers k - 1) (s.drop i) i kmer len =
        (List.range' i n).filterMap (fun j =>
          if k ≤ j + 1 ∧ validKmer s (j + 1 - k) k then
            some (kmerAt s (j + 1 - k) k, j + 1 - k)
          else none) := by
  intro n
  induction n with
  | zero =>
    intro i kmer len hin _ _ _ _ _
    have hi : i = s.length := by omega
    rw [hi, List.drop_length]
    rfl
  | succ n ih =>
    intro i kmer len hin hlk hli hrange hkmer hmax
    have hi : i < s.length := by omega
    have hdrop : s.drop i = s.getD i 'N' :: s.drop (i + 1) := by
      rw [List.getD_eq_getElem _ _ hi]
      exact List.drop_eq_getElem_cons hi
    rw [hdrop]
    by_cases hdef : charToBase (s.getD i 'N') < 4
    · by_cases hlen : len < k
      · -- defined base, k-mer under construction
        have hislen : i - len + len = i := by omega
        have hknew : kmer ||| (charToBase (s.getD i 'N') <<<
              (2 * (k - (len + 1)))) =
            encodeKmer ((s.drop (i - len)).take (len + 1)) <<<
              (2 * (k - (len + 1))) := by
          have hsnoc := slice_snoc s (i - len) len (by omega)
          rw [hsnoc, hislen, encodeKmer_append_singleton, hkmer]
          rw [Nat.shiftLeft_eq, Nat.shiftLeft_eq, Nat.shiftLeft_eq]
          have hpow : 2 ^ (2 * (k - len)) =
              4 * 2 ^ (2 * (k - (len + 1))) := by
            have h22 : 2 * (k - len) = 2 * (k - (len + 1)) + 2 := by omega
            rw [h22, Nat.pow_add]
            ring
          have hblt : charToBase (s.getD i 'N') * 2 ^ (2 * (k - (len + 1))) <
              2 ^ (2 * (k - len)) := by
            rw [hpow]
            exact Nat.mul_lt_mul_of_lt_of_le hdef (Nat.le_refl _)
              (Nat.two_pow_pos _)
          rw [lor_mul_pow_add _ _ _ hblt, hpow]
          ring
        by_cases hfire : len + 1 = k
        · -- a full k-mer is reported at start index i + 1 - k
          have hcond : k ≤ i + 1 ∧ validKmer s (i + 1 - k) k := by
            refine ⟨by omega, by omega, ?_⟩
            intro j hj
            rcases Nat.lt_or_ge (i + 1 - k + j) i with hlt | hge
            · exact hrange _ (by omega) hlt
            · have : i + 1 - k + j = i := by omega
              rw [this]
              exact hdef
          have hval : kmer ||| (charToBase (s.getD i 'N') <<<
                (2 * (k - (len + 1)))) = kmerAt s (i + 1 - k) k := by
            rw [hknew]
            have h1 : k - (len + 1) = 0 := by omega
            have h2 : i - len = i + 1 - k := by omega
            have h3 : len + 1 = k := hfire
            rw [h1, h2, h3]
            simp [kmerAt]
          rw [filterMap_range'_succ_pos _ i n _
            (by rw [if_pos hcond] :
              (if k ≤ i + 1 ∧ validKmer s (i + 1 - k) k then
                some (kmerAt s (i + 1 - k) k, i + 1 - k)
              else none) = some (kmerAt s (i + 1 - k) k, i + 1 - k))]
          simp only [kmerLoop, if_pos hdef, if_pos hlen, if_pos hfire]
          rw [hval]
          congr 1
          exact ih (i + 1)
            (kmerAt s (i + 1 - k) k) (len + 1) (by omega) (by omega) (by omega)
            (fun j h1 h2 => by
              rcases Nat.lt_or_ge j i with hlt | hge
              · exact hrange j (by omega) hlt
              · have : j = i := by omega
                rw [this]
                exact hdef)
            (by
              have h1 : 2 * (k - (len + 1)) = 0 := by omega
              have h2 : i + 1 - (len + 1) = i + 1 - k := by omega
              rw [h1, h2, Nat.shiftLeft_zero, hfire]
              rfl)
            (Or.inl hfire)
        · -- not yet full: no report
          have hcond : ¬ (k ≤ i + 1 ∧ validKmer s (i + 1 - k) k) := by
            rintro ⟨hki, hvk⟩
            rcases hmax with hmk | hz | hundef
            · omega
            · omega
            · have hj := hvk.2 (i - len - 1 - (i + 1 - k)) (by omega)
              have heq : i + 1 - k + (i - len - 1 - (i + 1 - k)) =
                  i - len - 1 := by omega
              rw [heq] at hj
              exact hundef hj
          rw [filterMap_range'_succ_neg _ i n (by rw [if_neg hcond])]
          simp only [kmerLoop, if_pos hdef, if_pos hlen, if_neg hfire]
          exact ih (i + 1)
            (kmer ||| (charToBase (s.getD i 'N') <<< (2 * (k - (len + 1)))))
            (len + 1) (by omega) (by omega) (by omega)
            (fun j h1 h2 => by
              rcases Nat.lt_or_ge j i with hlt | hge
              · exact hrange j (by omega) hlt
              · have : j = i := by omega
                rw [this]
                exact hdef)
            (by
              rw [hknew]
              have h2 : i + 1 - (len + 1) = i - len := by omega
              rw [h2])
            (by
              rcases hmax with hmk | hz | hundef
              · omega
              · right; left; omega
              · right; right
                have : i + 1 - (len + 1) - 1 = i - len - 1 := by omega
                rw [this]
                exact hundef)
      · -- defined base, rolling a full k-mer
        have hlenk : len = k := by omega
        subst hlenk
        have hcons := slice_cons s (i - len) (len - 1) (by omega)
        have hlm1 : len - 1 + 1 = len := by omega
        rw [hlm1] at hcons
        have hL : ((s.drop (i - len + 1)).take (len - 1)).length = len - 1 := by
          simp only [List.length_take, List.length_drop]
          omega
        have hE : encodeKmer ((s.drop (i - len)).take len) =
            charToBase (s.getD (i - len) 'N') * 4 ^ (len - 1) +
              encodeKmer ((s.drop (i - len + 1)).take (len - 1)) := by
          rw [hcons, encodeKmer_cons, hL]
        have hE1lt : encodeKmer ((s.drop (i - len + 1)).take (len - 1)) <
            4 ^ (len - 1) := by
          have := encodeKmer_lt ((s.drop (i - len + 1)).take (len - 1))
            (slice_defined s (i - len + 1) (len - 1) (by omega)
              (fun j h1 h2 => hrange j (by omega) (by omega)))
          rwa [hL] at this
        have h4k : (4 : Nat) ^ len = 2 ^ (2 * len) := by
          rw [Nat.pow_mul]
        have h4k1 : (4 : Nat) ^ len = 4 * 4 ^ (len - 1) := by
          calc (4 : Nat) ^ len = 4 ^ (len - 1 + 1) := by
                congr 1
                omega
            _ = 4 ^ (len - 1) * 4 := by rw [Nat.pow_succ]
            _ = 4 * 4 ^ (len - 1) := by ring
        have hknew : ((kmer <<< 2) &&& (numKmers len - 1)) |||
              charToBase (s.getD i 'N') =
            encodeKmer ((s.drop (i + 1 - len)).take len) := by
          rw [hkmer]
          have h0 : 2 * (len - len) = 0 := by omega
          rw [h0, Nat.shiftLeft_zero]
          rw [numKmers_eq len hk15]
          rw [Nat.shiftLeft_eq]
          rw [Nat.and_pow_two_sub_one_eq_mod]
          rw [hE]
          have hmod : (charToBase (s.getD (i - len) 'N') * 4 ^ (len - 1) +
                encodeKmer ((s.drop (i - len + 1)).take (len - 1))) * 2 ^ 2 %
                2 ^ (2 * len) =
              4 * encodeKmer ((s.drop (i - len + 1)).take (len - 1)) := by
            have hrw : (charToBase (s.getD (i - len) 'N') * 4 ^ (len - 1) +
                  encodeKmer ((s.drop (i - len + 1)).take (len - 1))) * 2 ^ 2 =
                4 * encodeKmer ((s.drop (i - len + 1)).take (len - 1)) +
                  charToBase (s.getD (i - len) 'N') * 2 ^ (2 * len) := by
              rw [← h4k, h4k1]
              ring
            rw [hrw]
            rw [Nat.add_mul_mod_self_right]
            apply Nat.mod_eq_of_lt
            rw [← h4k, h4k1]
            omega
          rw [hmod]
          have h4E : 4 * encodeKmer ((s.drop (i - len + 1)).take (len - 1)) =
              encodeKmer ((s.drop (i - len + 1)).take (len - 1)) * 2 ^ 2 := by
            ring
          rw [h4E]
          rw [lor_mul_pow_add _ _ _ (by omega : charToBase (s.getD i 'N') < 2 ^ 2)]
          have hsnoc := slice_snoc s (i - len + 1) (len - 1)
            (by omega)
          have hidx : i - len + 1 + (len - 1) = i := by omega
          rw [hidx] at hsnoc
          have hi1 : i + 1 - len = i - len + 1 := by omega
          rw [hlm1] at hsnoc
          rw [hi1, hsnoc, encodeKmer_append_singleton]
          ring
        have hcond : len ≤ i + 1 ∧ validKmer s (i + 1 - len) len := by
          refine ⟨by omega, by omega, ?_⟩
          intro j hj
          rcases Nat.lt_or_ge (i + 1 - len + j) i with hlt | hge
          · exact hrange _ (by omega) hlt
          · have : i + 1 - len + j = i := by omega
            rw [this]
            exact hdef
        have hval : ((kmer <<< 2) &&& (numKmers len - 1)) |||
              charToBase (s.getD i 'N') = kmerAt s (i + 1 - len) len := by
          rw [hknew]
          rfl
        rw [filterMap_range'_succ_pos _ i n _
          (by rw [if_pos hcond] :
            (if len ≤ i + 1 ∧ validKmer s (i + 1 - len) len then
              some (kmerAt s (i + 1 - len) len, i + 1 - len)
            else none) = some (kmerAt s (i + 1 - len) len, i + 1 - len))]
        simp only [kmerLoop, if_pos hdef, if_neg hlen]
        rw [hval]
        congr 1
        have hrec := ih (i + 1) (kmerAt s (i + 1 - len) len) len (by omega)
          (by omega) (by omega)
          (fun j h1 h2 => by
            rcases Nat.lt_or_ge j i with hlt | hge
            · exact hrange j (by omega) hlt
            · have : j = i := by omega
              rw [this]
              exact hdef)
          (by
            have h00 : 2 * (len - len) = 0 := by omega
            rw [h00, Nat.shiftLeft_zero]
            rfl)
          (Or.inl rfl)
        exact hrec
    · -- undefined base
      have hcond : ¬ (k ≤ i + 1 ∧ validKmer s (i + 1 - k) k) := by
        rintro ⟨hki, hvk⟩
        have hj := hvk.2 (k - 1) (by omega)
        have heq : i + 1 - k + (k - 1) = i := by omega
        rw [heq] at hj
        exact hdef hj
      rw [filterMap_range'_succ_neg _ i n (by rw [if_neg hcond])]
      by_cases hlen0 : 0 < len
      · simp only [kmerLoop, if_neg hdef, if_pos hlen0]
        exact ih (i + 1) 0 0 (by omega) (by omega) (by omega)
          (fun j h1 h2 => by omega)
          (by simp [encodeKmer])
          (Or.inr (Or.inr (by
            have : i + 1 - 0 - 1 = i := by omega
            rw [this]
            exact hdef)))
      · have hlen00 : len = 0 := by omega
        subst hlen00
        have hk0 : kmer = 0 := by
          rw [hkmer]
          simp [encodeKmer]
        simp only [kmerLoop, if_neg hdef, if_neg hlen0]
        rw [hk0]
        exact ih (i + 1) 0 0 (by omega) (by omega) (by omega)
          (fun j h1 h2 => by omega)
          (by simp [encodeKmer])
          (Or.inr (Or.inr (by
            have : i + 1 - 0 - 1 = i := by omega
            rw [this]
            exact hdef)))

theorem kmerReports_eq (s : List Char) (k : Nat) (hk : 1 ≤ k)
    (hk15 : k ≤ 15) :
    kmerReports s k = (List.range' 0 s.length).filterMap (fun j =>
      if k ≤ j + 1 ∧ validKmer s (j + 1 - k) k then
        some (kmerAt s (j + 1 - k) k, j + 1 - k)
      else none) := by
  have h := kmerLoop_spec s k hk hk15 s.length 0 0 0 (by omega) (by omega)
    (by omega) (fun j h1 h2 => by omega) (by simp [encodeKmer])
    (Or.inr (Or.inl rfl))
  simpa [kmerReports] using h

theorem kmerReports_mem (s : List Char) (k : Nat) (hk : 1 ≤ k)
    (hk15 : k ≤ 15) (kv p : Nat) :
    (kv, p) ∈ kmerReports s k ↔ validKmer s p k ∧ kv = kmerAt s p k := by
  rw [kmerReports_eq s k hk hk15, List.mem_filterMap]
  constructor
  · rintro ⟨j, hj, hfj⟩
    by_cases hcond : k ≤ j + 1 ∧ validKmer s (j + 1 - k) k
    · rw [if_pos hcond] at hfj
      injection hfj with hfj
      have hkv : kmerAt s (j + 1 - k) k = kv := congrArg Prod.fst hfj
      have hp : j + 1 - k = p := congrArg Prod.snd hfj
      rw [← hp, ← hkv]
      exact ⟨hcond.2, rfl⟩
    · rw [if_neg hcond] at hfj
      simp at hfj
  · rintro ⟨hvalid, rfl⟩
    refine ⟨p + k - 1, ?_, ?_⟩
    · rw [List.mem_range']
      have hlen : p + k ≤ s.length := hvalid.1
      exact ⟨p + k - 1, by omega, by omega⟩
    · have he : p + k - 1 + 1 - k = p := by omega
      rw [if_pos (by rw [he]; exact ⟨by omega, hvalid⟩), he]

theorem kmerReports_pairwise (s : List Char) (k : Nat) (hk : 1 ≤ k)
    (hk15 : k ≤ 15) :
    List.Pairwise (fun a b => a.2 < b.2) (kmerReports s k) := by
  rw [kmerReports_eq s k hk hk15]
  refine List.Pairwise.filterMap _ ?_ (List.pairwise_lt_range' 0 s.length)
  intro a b hab x hx y hy
  by_cases hca : k ≤ a + 1 ∧ validKmer s (a + 1 - k) k
  · rw [if_pos hca] at hx
    by_cases hcb : k ≤ b + 1 ∧ validKmer s (b + 1 - k) k
    · rw [if_pos hcb] at hy
      simp only [Option.mem_def, Option.some.injEq] at hx hy
      rw [← hx, ← hy]
      simp only
      have hka := hca.1
      omega
    · rw [if_neg hcb] at hy
      simp at hy
  · rw [if_neg hca] at hx
    simp at hx

/-- MinimizerFinder::reportKmer (minimizer.cpp lines 42-74) together with
    the final flush of MinimizerFinder::find (lines 30-36), folded over the
    k-mer report stream.  State none models currentWindowID = -1.  A k-mer
    whose window id equals the current one replaces the stored minimizer
    only when its hash (its rank) is strictly smaller; a k-mer of a new
    window emits the stored triple and restarts; the trailing window is
    emitted at end of input.  All reportMinimizer callbacks of the
    repository return true, so the search never stops early. -/
def minimRun (w : Nat) (rank : Nat → Nat) :
    List (Nat × Nat) → Option (Nat × Nat × Nat) → List (Nat × Nat × Nat)
  | [], none => []
  | [], some (cw, cm, ci) => [(cm, ci, cw)]
  | (kmer, idx) :: rest, none =>
    minimRun w rank rest (some (idx / w, rank kmer, idx))
  | (kmer, idx) :: rest, some (cw, cm, ci) =>
    if idx / w = cw then
      if rank kmer < cm then minimRun w rank rest (some (cw, rank kmer, idx))
      else minimRun w rank rest (some (cw, cm, ci))
    else (cm, ci, cw) :: minimRun w rank rest (some (idx / w, rank kmer, idx))

/-- The (minimizer, startIndex, windowID) triples reported for a
    sequence. -/
def minimizerReports (s : List Char) (k w : Nat) (rank : Nat → Nat) :
    List (Nat × Nat × Nat) :=
  minimRun w rank (kmerReports s k) none

/-- getWindows from window.cpp lines 39-44 (and the identical local Finder
    of pattern.cpp lines 35-68): each reported minimizer becomes a Window
    (minimizer, offset). -/
def getWindows (s : List Char) (k w : Nat) (rank : Nat → Nat) :
    List (Nat × Nat) :=
  (minimizerReports s k w rank).map (fun r => (r.1, r.2.1))

theorem minimRun_bound_pairwise (w : Nat) (rank : Nat → Nat) :
    ∀ (krs : List (Nat × Nat)) (cw cm ci : Nat),
      List.Pairwise (fun p q : Nat × Nat => p.2 < q.2) krs →
      (∀ p ∈ krs, cw ≤ p.2 / w) →
      List.Pairwise (fun a b : Nat × Nat × Nat => a.2.2 < b.2.2)
        (minimRun w rank krs (some (cw, cm, ci))) ∧
      (∀ r ∈ minimRun w rank krs (some (cw, cm, ci)), cw ≤ r.2.2) := by
  intro krs
  induction krs with
  | nil =>
    intro cw cm ci _ _
    refine ⟨by simp [minimRun], ?_⟩
    intro r hr
    simp only [minimRun, List.mem_singleton] at hr
    rw [hr]
  | cons hd rest ih =>
    intro cw cm ci hpair hbound
    obtain ⟨kmer, idx⟩ := hd
    have hpair' := (List.pairwise_cons.mp hpair).2
    have hhead := (List.pairwise_cons.mp hpair).1
    by_cases hw : idx / w = cw
    · by_cases hlt : rank kmer < cm
      · simp only [minimRun, if_pos hw, if_pos hlt]
        exact ih cw (rank kmer) idx hpair'
          (fun p hp => hbound p (List.mem_cons_of_mem _ hp))
      · simp only [minimRun, if_pos hw, if_neg hlt]
        exact ih cw cm ci hpair'
          (fun p hp => hbound p (List.mem_cons_of_mem _ hp))
    · have hcwlt : cw < idx / w := by
        have h2 : cw ≤ idx / w := hbound (kmer, idx) (List.mem_cons_self _ _)
        omega
      have hrest : ∀ p ∈ rest, idx / w ≤ p.2 / w := by
        intro p hp
        exact Nat.div_le_div_right (Nat.le_of_lt (hhead p hp))
      have hih := ih (idx / w) (rank kmer) idx hpair' hrest
      simp only [minimRun, if_neg hw]
      constructor
      · rw [List.pairwise_cons]
        refine ⟨?_, hih.1⟩
        intro r hr
        have := hih.2 r hr
        simp only
        omega
      · intro r hr
        rcases List.mem_cons.mp hr with rfl | hr'
        · simp
        · have := hih.2 r hr'
          omega

theorem minimRun_spec (w : Nat) (rank : Nat → Nat) :
    ∀ (krs prev : List (Nat × Nat)) (cw cm ci : Nat),
      (∀ p ∈ prev, p.2 / w = cw) →
      (∃ kv, (kv, ci) ∈ prev ∧ rank kv = cm) →
      (∀ p ∈ prev, cm < rank p.1 ∨ (cm = rank p.1 ∧ ci ≤ p.2)) →
      (∀ p ∈ krs, ∀ q ∈ prev, q.2 < p.2) →
      List.Pairwise (fun p q : Nat × Nat => p.2 < q.2) krs →
      (∀ p ∈ krs, cw ≤ p.2 / w) →
      ∀ r ∈ minimRun w rank krs (some (cw, cm, ci)),
        cw ≤ r.2.2 ∧
        (∃ kv, (kv, r.2.1) ∈ prev ++ krs ∧ r.2.1 / w = r.2.2 ∧
          rank kv = r.1) ∧
        (∀ p ∈ prev ++ krs, p.2 / w = r.2.2 →
          (r.1 < rank p.1 ∨ (r.1 = rank p.1 ∧ r.2.1 ≤ p.2))) := by
  intro krs
  induction krs with
  | nil =>
    intro prev cw cm ci hwin hex hmin _ _ _ r hr
    simp only [minimRun, List.mem_singleton] at hr
    subst hr
    obtain ⟨kv, hkv, hrank⟩ := hex
    refine ⟨Nat.le_refl _, ⟨kv, by simpa using hkv, ?_, hrank⟩, ?_⟩
    · exact hwin (kv, ci) hkv
    · intro p hp hpw
      exact hmin p (by simpa using hp)
  | cons hd rest ih =>
    intro prev cw cm ci hwin hex hmin horder hpair hbound
    obtain ⟨kmer, idx⟩ := hd
    have hpair' := (List.pairwise_cons.mp hpair).2
    have hhead := (List.pairwise_cons.mp hpair).1
    have hprevidx : ∀ q ∈ prev, q.2 < idx :=
      fun q hq => horder (kmer, idx) (List.mem_cons_self _ _) q hq
    have happ : (prev ++ [(kmer, idx)]) ++ rest =
        prev ++ (kmer, idx) :: rest := by
      rw [List.append_assoc]
      rfl
    by_cases hw : idx / w = cw
    · by_cases hlt : rank kmer < cm
      · simp only [minimRun, if_pos hw, if_pos hlt]
        intro r hr
        have hres := ih (prev ++ [(kmer, idx)]) cw (rank kmer) idx
          (by
            intro p hp
            rcases List.mem_append.mp hp with h | h
            · exact hwin p h
            · simp only [List.mem_singleton] at h
              rw [h]
              exact hw)
          ⟨kmer, by simp, rfl⟩
          (by
            intro p hp
            rcases List.mem_append.mp hp with h | h
            · left
              rcases hmin p h with h2 | h2
              · omega
              · omega
            · simp only [List.mem_singleton] at h
              rw [h]
              exact Or.inr ⟨rfl, Nat.le_refl _⟩)
          (by
            intro p hp q hq
            rcases List.mem_append.mp hq with h | h
            · exact horder p (List.mem_cons_of_mem _ hp) q h
            · simp only [List.mem_singleton] at h
              rw [h]
              exact hhead p hp)
          hpair'
          (fun p hp => hbound p (List.mem_cons_of_mem _ hp))
          r hr
        rw [happ] at hres
        exact hres
      · simp only [minimRun, if_pos hw, if_neg hlt]
        intro r hr
        have hres := ih (prev ++ [(kmer, idx)]) cw cm ci
          (by
            intro p hp
            rcases List.mem_append.mp hp with h | h
            · exact hwin p h
            · simp only [List.mem_singleton] at h
              rw [h]
              exact hw)
          (by
            obtain ⟨kv, hkv, hrank⟩ := hex
            exact ⟨kv, List.mem_append_left _ hkv, hrank⟩)
          (by
            intro p hp
            rcases List.mem_append.mp hp with h | h
            · exact hmin p h
            · simp only [List.mem_singleton] at h
              rw [h]
              show cm < rank kmer ∨ (cm = rank kmer ∧ ci ≤ idx)
              rcases Nat.lt_or_ge cm (rank kmer) with h2 | h2
              · exact Or.inl h2
              · right
                refine ⟨by omega, ?_⟩
                obtain ⟨kv, hkv, _⟩ := hex
                exact Nat.le_of_lt (hprevidx (kv, ci) hkv))
          (by
            intro p hp q hq
            rcases List.mem_append.mp hq with h | h
            · exact horder p (List.mem_cons_of_mem _ hp) q h
            · simp only [List.mem_singleton] at h
              rw [h]
              exact hhead p hp)
          hpair'
          (fun p hp => hbound p (List.mem_cons_of_mem _ hp))
          r hr
        rw [happ] at hres
        exact hres
    · have hcwlt : cw < idx / w := by
        have h2 : cw ≤ idx / w := hbound (kmer, idx) (List.mem_cons_self _ _)
        omega
      have hrestb : ∀ p ∈ rest, idx / w ≤ p.2 / w := by
        intro p hp
        exact Nat.div_le_div_right (Nat.le_of_lt (hhead p hp))
      simp only [minimRun, if_neg hw]
      intro r hr
      rcases List.mem_cons.mp hr with rfl | hr'
      · obtain ⟨kv, hkv, hrank⟩ := hex
        refine ⟨Nat.le_refl _, ⟨kv, List.mem_append_left _ hkv,
          hwin (kv, ci) hkv, hrank⟩, ?_⟩
        intro p hp hpw
        rcases List.mem_append.mp hp with h | h
        · exact hmin p h
        · rcases List.mem_cons.mp h with rfl | h2
          · simp only at hpw
            exact absurd hpw hw
          · have := hrestb p h2
            simp only at hpw
            omega
      · have hres := ih [(kmer, idx)] (idx / w) (rank kmer) idx
          (by
            intro p hp
            simp only [List.mem_singleton] at hp
            rw [hp])
          ⟨kmer, by simp, rfl⟩
          (by
            intro p hp
            simp only [List.mem_singleton] at hp
            rw [hp]
            exact Or.inr ⟨rfl, Nat.le_refl _⟩)
          (by
            intro p hp q hq
            simp only [List.mem_singleton] at hq
            rw [hq]
            exact hhead p hp)
          hpair' hrestb r hr'
        obtain ⟨hcwle, ⟨kv, hkv, hdiv, hrank⟩, hminall⟩ := hres
        refine ⟨by omega, ⟨kv, ?_, hdiv, hrank⟩, ?_⟩
        · rcases List.mem_append.mp hkv with h | h
          · simp only [List.mem_singleton] at h
            rw [h]
            exact List.mem_append_right _ (List.mem_cons_self _ _)
          · exact List.mem_append_right _ (List.mem_cons_of_mem _ h)
        · intro p hp hpw
          rcases List.mem_append.mp hp with h | h
          · have := hwin p h
            omega
          · rcases List.mem_cons.mp h with h3 | h2
            · rw [h3] at hpw ⊢
              exact hminall (kmer, idx)
                (List.mem_append_left _ (List.mem_singleton.mpr rfl)) hpw
            · exact hminall p (List.mem_append_right _ h2) hpw

/-- C6: for every sequence and every window length w ≥ 1 (with the
    program's k-mer length bounds 1 ≤ k ≤ 15), the minimizer extractor
    emits windows whose ids are strictly increasing in emission order;
    each emitted triple (minimizer, offset, id) has its k-mer offset in
    [w*id, w*(id+1)), the offset names a defined k-mer of the sequence
    whose rank is the reported minimizer, and every defined k-mer
    position p of the same window has strictly larger rank or equal rank
    with the emitted offset ≤ p — so ties within a window go to the
    earliest offset. -/
theorem minimizerReports_ok (s : List Char) (k w : Nat) (rank : Nat → Nat)
    (hk : 1 ≤ k) (hk15 : k ≤ 15) (hw : 1 ≤ w) :
    List.Pairwise (fun a b : Nat × Nat × Nat => a.2.2 < b.2.2)
      (minimizerReports s k w rank) ∧
    ∀ r ∈ minimizerReports s k w rank,
      w * r.2.2 ≤ r.2.1 ∧ r.2.1 < w * (r.2.2 + 1) ∧
      validKmer s r.2.1 k ∧ r.1 = rank (kmerAt s r.2.1 k) ∧
      ∀ p, validKmer s p k → p / w = r.2.2 →
        (r.1 < rank (kmerAt s p k) ∨
         (r.1 = rank (kmerAt s p k) ∧ r.2.1 ≤ p)) := by
  have hkp := kmerReports_pairwise s k hk hk15
  rcases hkr : kmerReports s k with _ | ⟨⟨kmer, idx⟩, rest⟩
  · constructor
    · simp [minimizerReports, hkr, minimRun]
    · intro r hr
      simp [minimizerReports, hkr, minimRun] at hr
  · rw [hkr] at hkp
    have hhead := (List.pairwise_cons.mp hkp).1
    have hpair' := (List.pairwise_cons.mp hkp).2
    have hbound : ∀ p ∈ rest, idx / w ≤ p.2 / w :=
      fun p hp => Nat.div_le_div_right (Nat.le_of_lt (hhead p hp))
    have hrun : minimizerReports s k w rank =
        minimRun w rank rest (some (idx / w, rank kmer, idx)) := by
      simp only [minimizerReports, hkr, minimRun]
    have hbp := minimRun_bound_pairwise w rank rest (idx / w) (rank kmer)
      idx hpair' hbound
    have hspec := minimRun_spec w rank rest [(kmer, idx)] (idx / w)
      (rank kmer) idx
      (fun p hp => by simp only [List.mem_singleton] at hp; rw [hp])
      ⟨kmer, List.mem_singleton.mpr rfl, rfl⟩
      (fun p hp => by
        simp only [List.mem_singleton] at hp
        rw [hp]
        exact Or.inr ⟨rfl, Nat.le_refl _⟩)
      (fun p hp q hq => by
        simp only [List.mem_singleton] at hq
        rw [hq]
        exact hhead p hp)
      hpair' hbound
    constructor
    · rw [hrun]
      exact hbp.1
    · intro r hr
      rw [hrun] at hr
      obtain ⟨hcwle, ⟨kv, hkv, hdiv, hrank⟩, hminall⟩ := hspec r hr
      have hkvmem : (kv, r.2.1) ∈ kmerReports s k := by
        rw [hkr]
        rwa [List.singleton_append] at hkv
      obtain ⟨hvalid, hkveq⟩ :=
        (kmerReports_mem s k hk hk15 kv r.2.1).mp hkvmem
      refine ⟨?_, ?_, hvalid, by rw [← hrank, hkveq], ?_⟩
      · rw [← hdiv, Nat.mul_comm]
        exact Nat.div_mul_le_self _ _
      · have hlt2 : r.2.1 / w < r.2.2 + 1 := by
          rw [hdiv]
          exact Nat.lt_succ_self _
        rw [Nat.mul_comm]
        exact (Nat.div_lt_iff_lt_mul (by omega)).mp hlt2
      · intro p hpv hpw
        have hpmem : (kmerAt s p k, p) ∈ kmerReports s k :=
          (kmerReports_mem s k hk hk15 _ p).mpr ⟨hpv, rfl⟩
        have hpmem2 : (kmerAt s p k, p) ∈ [(kmer, idx)] ++ rest := by
          rw [List.singleton_append, ← hkr]
          exact hpmem
        exact hminall (kmerAt s p k, p) hpmem2 hpw

/-- Witness for C6 at s = "ACGT", k = 1, w = 2, rank the identity. -/
theorem minimizerReports_ok_witness :
    List.Pairwise (fun a b : Nat × Nat × Nat => a.2.2 < b.2.2)
      (minimizerReports (['A', 'C', 'G', 'T']) 1 2 (fun x => x)) ∧
    ∀ r ∈ minimizerReports (['A', 'C', 'G', 'T']) 1 2 (fun x => x),
      2 * r.2.2 ≤ r.2.1 ∧ r.2.1 < 2 * (r.2.2 + 1) ∧
      validKmer (['A', 'C', 'G', 'T']) r.2.1 1 ∧
      r.1 = (fun x => x) (kmerAt (['A', 'C', 'G', 'T']) r.2.1 1) ∧
      ∀ p, validKmer (['A', 'C', 'G', 'T']) p 1 → p / 2 = r.2.2 →
        (r.1 < (fun x => x) (kmerAt (['A', 'C', 'G', 'T']) p 1) ∨
         (r.1 = (fun x => x) (kmerAt (['A', 'C', 'G', 'T']) p 1) ∧
          r.2.1 ≤ p)) :=
  minimizerReports_ok ['A', 'C', 'G', 'T'] 1 2 (fun x => x)
    (by decide) (by decide) (by decide)

/-- The per-window hit contribution of getHits (pattern.cpp lines
    251-265): look the window's minimizer up in the pattern map and, for
    each stored location whose pattern is eligible (non-NULL entry, line
    259), record (patternIndex, max(0, patternOffset - windowOffset))
    (lines 262-264).  The pattern map is abstracted as a lookup function
    pm and eligibility as elig. -/
def windowHits (pm : Nat → Option (List (Nat × Nat))) (elig : Nat → Bool)
    (win : Nat × Nat) : List (Nat × Int) :=
  match pm win.1 with
  | none => []
  | some locs => locs.filterMap (fun loc =>
      if elig loc.1 then
        some (loc.1, max 0 ((loc.2 : Int) - (win.2 : Int)))
      else none)

/-- The hit-collection loop of getHits (pattern.cpp lines 241-266): scan
    the read's windows in order and skip a window exactly when its
    minimizer exceeds maxMinimizer (line 248: minimizer > maxMinimizer).
    The final std::sort (lines 270-271) only permutes the collected
    hits. -/
def getHitsCore (s : List Char) (pm : Nat → Option (List (Nat × Nat)))
    (elig : Nat → Bool) (k w : Nat) (rank : Nat → Nat)
    (maxMinimizer : Nat) : List (Nat × Int) :=
  (getWindows s k w rank).flatMap (fun win =>
    if maxMinimizer < win.1 then [] else windowHits pm elig win)

/-- The (minimizer, patternIndex, offset) entries pushed into the
    PatternMap by the loop of createPatternMap (pattern.cpp lines
    148-173), starting at pattern index i: a window of a pattern is
    skipped exactly when its minimizer exceeds maxMinimizer (line
    159). -/
def cpmAux (k w : Nat) (rank : Nat → Nat) (maxMinimizer : Nat) :
    Nat → List Pattern → List (Nat × Nat × Nat)
  | _, [] => []
  | i, pat :: rest =>
    (getWindows pat.sequence k w rank).filterMap (fun win =>
      if maxMinimizer < win.1 then none else some (win.1, i, win.2))
      ++ cpmAux k w rank maxMinimizer (i + 1) rest

/-- All entries stored by createPatternMap (pattern.cpp lines
    139-179). -/
def createPatternMapEntries (pv : List Pattern) (k w : Nat)
    (rank : Nat → Nat) (maxMinimizer : Nat) : List (Nat × Nat × Nat) :=
  cpmAux k w rank maxMinimizer 0 pv

theorem minimRun_source (w : Nat) (rank : Nat → Nat)
    (P : Nat × Nat → Prop) :
    ∀ (krs : List (Nat × Nat)) (cw cm ci : Nat),
      (∃ kv, P (kv, ci) ∧ rank kv = cm) →
      (∀ p ∈ krs, P p) →
      ∀ r ∈ minimRun w rank krs (some (cw, cm, ci)),
        ∃ kv, P (kv, r.2.1) ∧ rank kv = r.1 := by
  intro krs
  induction krs with
  | nil =>
    intro cw cm ci hex _ r hr
    simp only [minimRun, List.mem_singleton] at hr
    subst hr
    exact hex
  | cons hd rest ih =>
    intro cw cm ci hex hall r hr
    obtain ⟨kmer, idx⟩ := hd
    have hhd : P (kmer, idx) := hall _ (List.mem_cons_self _ _)
    have hall' : ∀ p ∈ rest, P p :=
      fun p hp => hall p (List.mem_cons_of_mem _ hp)
    by_cases hw : idx / w = cw
    · by_cases hlt : rank kmer < cm
      · simp only [minimRun, if_pos hw, if_pos hlt] at hr
        exact ih cw (rank kmer) idx ⟨kmer, hhd, rfl⟩ hall' r hr
      · simp only [minimRun, if_pos hw, if_neg hlt] at hr
        exact ih cw cm ci hex hall' r hr
    · simp only [minimRun, if_neg hw] at hr
      rcases List.mem_cons.mp hr with rfl | hr'
      · exact hex
      · exact ih (idx / w) (rank kmer) idx ⟨kmer, hhd, rfl⟩ hall' r hr'

theorem getWindows_valid (s : List Char) (k w : Nat) (rank : Nat → Nat)
    (hk : 1 ≤ k) (hk15 : k ≤ 15) :
    ∀ win ∈ getWindows s k w rank,
      validKmer s win.2 k ∧ win.1 = rank (kmerAt s win.2 k) := by
  intro win hwin
  simp only [getWindows, List.mem_map] at hwin
  obtain ⟨r, hr, hwe⟩ := hwin
  rcases hkr : kmerReports s k with _ | ⟨⟨kmer, idx⟩, rest⟩
  · simp only [minimizerReports] at hr
    rw [hkr] at hr
    simp [minimRun] at hr
  · simp only [minimizerReports] at hr
    rw [hkr] at hr
    simp only [minimRun] at hr
    have hsrc := minimRun_source w rank (fun q => q ∈ kmerReports s k)
      rest (idx / w) (rank kmer) idx
      ⟨kmer, by rw [hkr]; exact List.mem_cons_self _ _, rfl⟩
      (fun p hp => by rw [hkr]; exact List.mem_cons_of_mem _ hp)
      r hr
    obtain ⟨kv, hkvmem, hrank⟩ := hsrc
    obtain ⟨hvalid, hkveq⟩ :=
      (kmerReports_mem s k hk hk15 kv r.2.1).mp hkvmem
    subst hwe
    constructor
    · show validKmer s r.2.1 k
      exact hvalid
    · show r.1 = rank (kmerAt s r.2.1 k)
      rw [← hrank, hkveq]

theorem cpmAux_spec (k w : Nat) (rank : Nat → Nat) (mm : Nat)
    (hk : 1 ≤ k) (hk15 : k ≤ 15) :
    ∀ (pv : List Pattern) (i : Nat),
      ∀ e ∈ cpmAux k w rank mm i pv,
        e.1 ≤ mm ∧ i ≤ e.2.1 ∧
        ∃ pat, pv[e.2.1 - i]? = some pat ∧
          validKmer pat.sequence e.2.2 k ∧
          e.1 = rank (kmerAt pat.sequence e.2.2 k) := by
  intro pv
  induction pv with
  | nil =>
    intro i e he
    simp [cpmAux] at he
  | cons pat rest ih =>
    intro i e he
    simp only [cpmAux, List.mem_append] at he
    rcases he with he | he
    · rw [List.mem_filterMap] at he
      obtain ⟨win, hwin, hfe⟩ := he
      by_cases hmm : mm < win.1
      · rw [if_pos hmm] at hfe
        exact absurd hfe (by simp)
      · rw [if_neg hmm] at hfe
        injection hfe with hfe
        subst hfe
        obtain ⟨hv, hr⟩ :=
          getWindows_valid pat.sequence k w rank hk hk15 win hwin
        refine ⟨?_, ?_, pat, ?_, ?_, ?_⟩
        · show win.1 ≤ mm
          omega
        · show i ≤ i
          exact Nat.le_refl _
        · show (pat :: rest)[i - i]? = some pat
          rw [Nat.sub_self]
          exact List.getElem?_cons_zero
        · exact hv
        · exact hr
    · obtain ⟨h1, h2, pat', hp, hv, hr⟩ := ih (i + 1) e he
      refine ⟨h1, by omega, pat', ?_, hv, hr⟩
      have hidx : e.2.1 - i = (e.2.1 - (i + 1)) + 1 := by omega
      rw [hidx, List.getElem?_cons_succ]
      exact hp

theorem flatMap_guard_filter (pm : Nat → Option (List (Nat × Nat)))
    (elig : Nat → Bool) (mm : Nat) :
    ∀ l : List (Nat × Nat),
      (l.flatMap (fun win =>
        if mm < win.1 then [] else windowHits pm elig win)) =
      (l.filter (fun win => decide (win.1 ≤ mm))).flatMap
        (windowHits pm elig) := by
  intro l
  induction l with
  | nil => rfl
  | cons hd t ih =>
    rw [List.flatMap_cons, List.filter_cons]
    by_cases hmm : mm < hd.1
    · rw [if_pos hmm,
        if_neg (by simp only [decide_eq_true_eq]; omega),
        List.nil_append, ih]
    · rw [if_neg hmm, if_pos (decide_eq_true (by omega : hd.1 ≤ mm)),
        List.flatMap_cons, ih]

/-- C2 (amended): every (minimizer, patternIndex, offset) entry stored by
    createPatternMap has minimizer ≤ maxMinimizer (not <), the offset is
    a defined k-mer position of that pattern's delimiter-stripped
    sequence, and the stored minimizer is the rank of the k-mer starting
    there; and getHits ignores exactly the windows whose minimizer
    exceeds maxMinimizer: its hit collection equals the collection over
    the windows with minimizer ≤ maxMinimizer. -/
theorem createPatternMap_getHits_ok (pv : List Pattern) (s : List Char)
    (pm : Nat → Option (List (Nat × Nat))) (elig : Nat → Bool)
    (k w maxMinimizer : Nat) (rank : Nat → Nat)
    (hk : 1 ≤ k) (hk15 : k ≤ 15) :
    (∀ e ∈ createPatternMapEntries pv k w rank maxMinimizer,
      e.1 ≤ maxMinimizer ∧
      ∃ pat, pv[e.2.1]? = some pat ∧
        validKmer pat.sequence e.2.2 k ∧
        e.1 = rank (kmerAt pat.sequence e.2.2 k)) ∧
    getHitsCore s pm elig k w rank maxMinimizer =
      ((getWindows s k w rank).filter
        (fun win => decide (win.1 ≤ maxMinimizer))).flatMap
        (windowHits pm elig) := by
  constructor
  · intro e he
    obtain ⟨h1, h2, pat, hp, hv, hr⟩ :=
      cpmAux_spec k w rank maxMinimizer hk hk15 pv 0 e he
    exact ⟨h1, pat, by simpa using hp, hv, hr⟩
  · exact flatMap_guard_filter pm elig maxMinimizer
      (getWindows s k w rank)

/-- C2 counterexample: with k = 1, w = 1, the identity rank function and
    cutoff maxMinimizer = 0, the pattern "AAA" yields a stored index
    entry (0, 0, 0) whose minimizer — the rank 0 of the k-mer "A" at
    offset 0 — is NOT strictly below the cutoff, and a read "A" whose
    sole window minimizer has rank equal to the cutoff is NOT ignored by
    the hit collection: the claim's "rank < cutoff" and "ranks ≥ cutoff
    are ignored" both fail at rank = cutoff. -/
theorem createPatternMap_counterexample :
    (0, 0, 0) ∈ createPatternMapEntries
      [⟨['P'], ['A', 'A', 'A'], ['A', ']', 'A', '[', 'A'], 1, 1, false⟩]
      1 1 (fun x => x) 0 ∧
    ¬ ((fun x => x) (kmerAt ['A', 'A', 'A'] 0 1) < 0) ∧
    getHitsCore ['A'] (fun m => if m = 0 then some [(0, 2)] else none)
      (fun x => true) 1 1 (fun x => x) 0 ≠ [] := by
  refine ⟨by decide, by decide, by decide⟩

/-- Witness for C2 at a one-pattern catalog ("AAA"), read "A", k = 1,
    w = 1, identity ranks, cutoff 0, a map sending minimizer 0 to a
    single location and all patterns eligible. -/
theorem createPatternMap_getHits_ok_witness :
    (∀ e ∈ createPatternMapEntries
        [⟨['P'], ['A', 'A', 'A'], ['A', ']', 'A', '[', 'A'], 1, 1, false⟩]
        1 1 (fun x => x) 0,
      e.1 ≤ 0 ∧
      ∃ pat,
        ([⟨['P'], ['A', 'A', 'A'], ['A', ']', 'A', '[', 'A'], 1, 1,
          false⟩] : List Pattern)[e.2.1]? = some pat ∧
        validKmer pat.sequence e.2.2 1 ∧
        e.1 = (fun x => x) (kmerAt pat.sequence e.2.2 1)) ∧
    getHitsCore ['A'] (fun m => if m = 0 then some [(0, 2)] else none)
      (fun x => true) 1 1 (fun x => x) 0 =
      ((getWindows ['A'] 1 1 (fun x => x)).filter
        (fun win => decide (win.1 ≤ 0))).flatMap
        (windowHits (fun m => if m = 0 then some [(0, 2)] else none)
          (fun x => true)) :=
  createPatternMap_getHits_ok
    [⟨['P'], ['A', 'A', 'A'], ['A', ']', 'A', '[', 'A'], 1, 1, false⟩]
    ['A'] (fun m => if m = 0 then some [(0, 2)] else none)
    (fun x => true) 1 1 0 (fun x => x) (by decide) (by decide)

/-- The sign of std::strcmp on NUL-free strings (hit.cpp line 348):
    compare character values position by position; only the sign of the
    result is ever used, so the embedding returns -1, 0 or 1. -/
def strcmpList : List Char → List Char → Int
  | [], [] => 0
  | [], _ :: _ => -1
  | _ :: _, [] => 1
  | a :: as, b :: bs =>
    if a.toNat < b.toNat then -1
    else if b.toNat < a.toNat then 1
    else strcmpList as bs

/-- std::string operator< (hit.cpp line 364): lexicographic comparison by
    character value. -/
def stringLtList : List Char → List Char → Bool
  | _, [] => false
  | [], _ :: _ => true
  | a :: as, b :: bs =>
    if a.toNat < b.toNat then true
    else if b.toNat < a.toNat then false
    else stringLtList as bs

/-- The fields of HitPattern (hit.h) read by HitCompare and Hit::sameAs:
    the pattern name, the leftBases and rightBases inherited from Pattern,
    and the junction-spanning read count.  The remaining HitPattern fields
    (sequence, annotations, matching bases, possible, insert size) play no
    role in sorting or duplicate marking. -/
structure HitPat where
  name : List Char
  leftBases : Int
  rightBases : Int
  spanningCount : Int
deriving DecidableEq

/-- A Hit (hit.h lines 85-105) restricted to the fields read by
    HitCompare, Hit::sameAs and markDuplicates: the pattern, the first
    read's name, and the duplicate flag (false on construction). -/
structure Hit where
  pattern : HitPat
  read1Name : List Char
  duplicate : Bool
deriving DecidableEq

/-- HitCompare from hit.cpp lines 338-366: sort by ascending pattern
    name (strcmp), then ascending leftBases, then ascending rightBases,
    then descending spanningCount, then ascending read1 name.  The int
    key differences are modelled exactly on Int. -/
def HitCompare (a b : Hit) : Bool :=
  if strcmpList a.pattern.name b.pattern.name ≠ 0 then
    decide (strcmpList a.pattern.name b.pattern.name < 0)
  else if a.pattern.leftBases - b.pattern.leftBases ≠ 0 then
    decide (a.pattern.leftBases - b.pattern.leftBases < 0)
  else if a.pattern.rightBases - b.pattern.rightBases ≠ 0 then
    decide (a.pattern.rightBases - b.pattern.rightBases < 0)
  else if a.pattern.spanningCount - b.pattern.spanningCount ≠ 0 then
    decide (a.pattern.spanningCount - b.pattern.spanningCount > 0)
  else stringLtList a.read1Name b.read1Name

/-- Hit::sameAs from hit.cpp lines 86-91: duplicates agree on pattern
    name, leftBases and rightBases. -/
def sameAs (a b : Hit) : Bool :=
  decide (a.pattern.name = b.pattern.name) &&
  decide (a.pattern.leftBases = b.pattern.leftBases) &&
  decide (a.pattern.rightBases = b.pattern.rightBases)

/-- Tail of the claim's sort order from the spanningCount key on:
    descending spanningCount, then ascending first-read name. -/
def hitQ4 (a b : Hit) : Prop :=
  b.pattern.spanningCount < a.pattern.spanningCount ∨
  (a.pattern.spanningCount = b.pattern.spanningCount ∧
   strcmpList a.read1Name b.read1Name < 0)

/-- Tail of the claim's sort order from the rightBases key on. -/
def hitQ3 (a b : Hit) : Prop :=
  a.pattern.rightBases < b.pattern.rightBases ∨
  (a.pattern.rightBases = b.pattern.rightBases ∧ hitQ4 a b)

/-- Tail of the claim's sort order from the leftBases key on. -/
def hitQ2 (a b : Hit) : Prop :=
  a.pattern.leftBases < b.pattern.leftBases ∨
  (a.pattern.leftBases = b.pattern.leftBases ∧ hitQ3 a b)

/-- The claim's sort order, written out: ascending pattern name, then
    ascending leftBases, then ascending rightBases, then descending
    spanningCount, then ascending first-read name. -/
def hitLtProp (a b : Hit) : Prop :=
  strcmpList a.pattern.name b.pattern.name < 0 ∨
  (a.pattern.name = b.pattern.name ∧ hitQ2 a b)

/-- Agreement on all five sort keys. -/
def hitKeysEq (a b : Hit) : Prop :=
  a.pattern.name = b.pattern.name ∧
  (a.pattern.leftBases = b.pattern.leftBases ∧
   (a.pattern.rightBases = b.pattern.rightBases ∧
    (a.pattern.spanningCount = b.pattern.spanningCount ∧
     a.read1Name = b.read1Name)))

/-- The non-strict order std::sort establishes: b is not strictly before
    a under HitCompare. -/
def hitLE (a b : Hit) : Prop := HitCompare b a = false

instance : DecidableRel hitLE :=
  fun a b => inferInstanceAs (Decidable (HitCompare b a = false))

/-- sortHits from hit.cpp lines 371-374: std::sort with HitCompare.
    std::sort promises a permutation ordered so that no element is
    strictly before its predecessor and leaves the order of ties
    unspecified; the embedding picks insertion sort with the same
    comparator, one such permutation. -/
def sortHits (hits : List Hit) : List Hit :=
  List.insertionSort hitLE hits

/-- One step of markDuplicates (hit.cpp lines 380-387): hitVector[i] is
    flagged when it agrees with hitVector[i-1]; the possibly-flagged hit
    is the one the next iteration compares against, exactly as in the
    vector. -/
def markDupAux : Hit → List Hit → List Hit
  | _, [] => []
  | prev, h :: rest =>
    if sameAs h prev then
      { h with duplicate := true } ::
        markDupAux { h with duplicate := true } rest
    else h :: markDupAux h rest

/-- markDuplicates from hit.cpp lines 380-387: the loop starts at i = 1,
    so the first hit is never flagged. -/
def markDuplicates : List Hit → List Hit
  | [] => []
  | h :: rest => h :: markDupAux h rest

/-- The tail of readHits (hit.cpp lines 433-437): with more than one hit,
    sort and then mark duplicates. -/
def readHitsStore (hits : List Hit) : List Hit :=
  if 1 < hits.length then markDuplicates (sortHits hits) else hits

theorem strcmpList_neg : ∀ a b : List Char,
    strcmpList b a = - strcmpList a b
  | [], [] => by simp [strcmpList]
  | [], _ :: _ => by simp [strcmpList]
  | _ :: _, [] => by simp [strcmpList]
  | a :: as, b :: bs => by
    simp only [strcmpList]
    split_ifs with h1 h2
    · omega
    · rfl
    · decide
    · exact strcmpList_neg as bs

theorem strcmpList_eq_zero_iff : ∀ a b : List Char,
    strcmpList a b = 0 ↔ a = b
  | [], [] => by simp [strcmpList]
  | [], _ :: _ => by simp [strcmpList]
  | _ :: _, [] => by simp [strcmpList]
  | a :: as, b :: bs => by
    simp only [strcmpList, List.cons.injEq]
    split_ifs with h1 h2
    · constructor
      · intro h
        exact absurd h (by decide)
      · rintro ⟨rfl, _⟩
        exact absurd h1 (by omega)
    · constructor
      · intro h
        exact absurd h (by decide)
      · rintro ⟨rfl, _⟩
        exact absurd h2 (by omega)
    · have hab : a = b := Char.eq_of_val_eq (UInt32.ext (by
        show a.toNat = b.toNat
        omega))
      rw [strcmpList_eq_zero_iff as bs]
      simp [hab]

theorem strcmpList_trans : ∀ a b c : List Char,
    strcmpList a b < 0 → strcmpList b c < 0 → strcmpList a c < 0
  | [], [], _ => by simp [strcmpList]
  | [], _ :: _, [] => by simp [strcmpList]
  | [], _ :: _, _ :: _ => by simp [strcmpList]
  | _ :: _, [], _ => by simp [strcmpList]
  | _ :: _, _ :: _, [] => by simp [strcmpList]
  | a :: as, b :: bs, c :: cs => by
    intro h1 h2
    by_cases hab : a.toNat < b.toNat
    · by_cases hbc : b.toNat < c.toNat
      · have hac : a.toNat < c.toNat := by omega
        simp only [strcmpList]
        rw [if_pos hac]
        decide
      · by_cases hcb : c.toNat < b.toNat
        · simp only [strcmpList, if_neg hbc, if_pos hcb] at h2
          exact absurd h2 (by decide)
        · have hac : a.toNat < c.toNat := by omega
          simp only [strcmpList]
          rw [if_pos hac]
          decide
    · by_cases hba : b.toNat < a.toNat
      · simp only [strcmpList, if_neg hab, if_pos hba] at h1
        exact absurd h1 (by decide)
      · simp only [strcmpList, if_neg hab, if_neg hba] at h1
        by_cases hbc : b.toNat < c.toNat
        · have hac : a.toNat < c.toNat := by omega
          simp only [strcmpList]
          rw [if_pos hac]
          decide
        · by_cases hcb : c.toNat < b.toNat
          · simp only [strcmpList, if_neg hbc, if_pos hcb] at h2
            exact absurd h2 (by decide)
          · simp only [strcmpList, if_neg hbc, if_neg hcb] at h2
            simp only [strcmpList,
              if_neg (show ¬ a.toNat < c.toNat by omega),
              if_neg (show ¬ c.toNat < a.toNat by omega)]
            exact strcmpList_trans as bs cs h1 h2

theorem strcmpList_tricho (a b : List Char) :
    strcmpList a b < 0 ∨ strcmpList b a < 0 ∨ a = b := by
  rcases lt_trichotomy (strcmpList a b) 0 with h | h | h
  · exact Or.inl h
  · exact Or.inr (Or.inr ((strcmpList_eq_zero_iff a b).mp h))
  · refine Or.inr (Or.inl ?_)
    rw [strcmpList_neg a b]
    omega

theorem stringLtList_iff : ∀ a b : List Char,
    stringLtList a b = true ↔ strcmpList a b < 0
  | [], [] => by simp [stringLtList, strcmpList]
  | [], _ :: _ => by simp [stringLtList, strcmpList]
  | _ :: _, [] => by simp [stringLtList, strcmpList]
  | a :: as, b :: bs => by
    simp only [stringLtList, strcmpList]
    split_ifs with h1 h2
    · simp
    · simp
    · exact stringLtList_iff as bs

theorem lex_trans {α : Type} {P E Q : α → α → Prop}
    (hP : ∀ x y z, P x y → P y z → P x z)
    (hE : ∀ x y z, E x y → E y z → E x z)
    (hPEl : ∀ x y z, P x y → E y z → P x z)
    (hPEr : ∀ x y z, E x y → P y z → P x z)
    (hQ : ∀ x y z, Q x y → Q y z → Q x z) :
    ∀ x y z, (P x y ∨ (E x y ∧ Q x y)) → (P y z ∨ (E y z ∧ Q y z)) →
      (P x z ∨ (E x z ∧ Q x z)) := by
  rintro x y z (h | ⟨e, q⟩) (h' | ⟨e', q'⟩)
  · exact Or.inl (hP x y z h h')
  · exact Or.inl (hPEl x y z h e')
  · exact Or.inl (hPEr x y z e h')
  · exact Or.inr ⟨hE x y z e e', hQ x y z q q'⟩

theorem lex_total {α : Type} {P E Q R : α → α → Prop}
    (hPE : ∀ x y, P x y ∨ P y x ∨ E x y)
    (hEsymm : ∀ x y, E x y → E y x)
    (hQR : ∀ x y, Q x y ∨ Q y x ∨ R x y) :
    ∀ x y, (P x y ∨ (E x y ∧ Q x y)) ∨ (P y x ∨ (E y x ∧ Q y x)) ∨
      (E x y ∧ R x y) := by
  intro x y
  rcases hPE x y with h | h | h
  · exact Or.inl (Or.inl h)
  · exact Or.inr (Or.inl (Or.inl h))
  · rcases hQR x y with h' | h' | h'
    · exact Or.inl (Or.inr ⟨h, h'⟩)
    · exact Or.inr (Or.inl (Or.inr ⟨hEsymm x y h, h'⟩))
    · exact Or.inr (Or.inr ⟨h, h'⟩)

theorem hitQ4_total (x y : Hit) : hitQ4 x y ∨ hitQ4 y x ∨
    (x.pattern.spanningCount = y.pattern.spanningCount ∧
     x.read1Name = y.read1Name) := by
  unfold hitQ4
  exact @lex_total Hit
    (fun a b => b.pattern.spanningCount < a.pattern.spanningCount)
    (fun a b => a.pattern.spanningCount = b.pattern.spanningCount)
    (fun a b => strcmpList a.read1Name b.read1Name < 0)
    (fun a b => a.read1Name = b.read1Name)
    (fun a b => by omega)
    (fun a b e => e.symm)
    (fun a b => strcmpList_tricho _ _)
    x y

theorem hitQ3_total (x y : Hit) : hitQ3 x y ∨ hitQ3 y x ∨
    (x.pattern.rightBases = y.pattern.rightBases ∧
     (x.pattern.spanningCount = y.pattern.spanningCount ∧
      x.read1Name = y.read1Name)) := by
  unfold hitQ3
  exact @lex_total Hit
    (fun a b => a.pattern.rightBases < b.pattern.rightBases)
    (fun a b => a.pattern.rightBases = b.pattern.rightBases)
    hitQ4
    (fun a b => a.pattern.spanningCount = b.pattern.spanningCount ∧
      a.read1Name = b.read1Name)
    (fun a b => by omega)
    (fun a b e => e.symm)
    hitQ4_total
    x y

theorem hitQ2_total (x y : Hit) : hitQ2 x y ∨ hitQ2 y x ∨
    (x.pattern.leftBases = y.pattern.leftBases ∧
     (x.pattern.rightBases = y.pattern.rightBases ∧
      (x.pattern.spanningCount = y.pattern.spanningCount ∧
       x.read1Name = y.read1Name))) := by
  unfold hitQ2
  exact @lex_total Hit
    (fun a b => a.pattern.leftBases < b.pattern.leftBases)
    (fun a b => a.pattern.leftBases = b.pattern.leftBases)
    hitQ3
    (fun a b => a.pattern.rightBases = b.pattern.rightBases ∧
      (a.pattern.spanningCount = b.pattern.spanningCount ∧
       a.read1Name = b.read1Name))
    (fun a b => by omega)
    (fun a b e => e.symm)
    hitQ3_total
    x y

theorem hitLt_total_keys (a b : Hit) :
    hitLtProp a b ∨ hitLtProp b a ∨ hitKeysEq a b := by
  unfold hitLtProp hitKeysEq
  exact @lex_total Hit
    (fun a b => strcmpList a.pattern.name b.pattern.name < 0)
    (fun a b => a.pattern.name = b.pattern.name)
    hitQ2
    (fun a b => a.pattern.leftBases = b.pattern.leftBases ∧
      (a.pattern.rightBases = b.pattern.rightBases ∧
       (a.pattern.spanningCount = b.pattern.spanningCount ∧
        a.read1Name = b.read1Name)))
    (fun a b => strcmpList_tricho _ _)
    (fun a b e => e.symm)
    hitQ2_total
    a b

theorem hitQ4_trans (x y z : Hit) :
    hitQ4 x y → hitQ4 y z → hitQ4 x z := by
  unfold hitQ4
  exact @lex_trans Hit
    (fun a b => b.pattern.spanningCount < a.pattern.spanningCount)
    (fun a b => a.pattern.spanningCount = b.pattern.spanningCount)
    (fun a b => strcmpList a.read1Name b.read1Name < 0)
    (fun a b c h h' => by omega)
    (fun a b c e e' => e.trans e')
    (fun a b c h e => by omega)
    (fun a b c e h => by omega)
    (fun a b c h h' => strcmpList_trans _ _ _ h h')
    x y z

theorem hitQ3_trans (x y z : Hit) :
    hitQ3 x y → hitQ3 y z → hitQ3 x z := by
  unfold hitQ3
  exact @lex_trans Hit
    (fun a b => a.pattern.rightBases < b.pattern.rightBases)
    (fun a b => a.pattern.rightBases = b.pattern.rightBases)
    hitQ4
    (fun a b c h h' => by omega)
    (fun a b c e e' => e.trans e')
    (fun a b c h e => by omega)
    (fun a b c e h => by omega)
    hitQ4_trans
    x y z

theorem hitQ2_trans (x y z : Hit) :
    hitQ2 x y → hitQ2 y z → hitQ2 x z := by
  unfold hitQ2
  exact @lex_trans Hit
    (fun a b => a.pattern.leftBases < b.pattern.leftBases)
    (fun a b => a.pattern.leftBases = b.pattern.leftBases)
    hitQ3
    (fun a b c h h' => by omega)
    (fun a b c e e' => e.trans e')
    (fun a b c h e => by omega)
    (fun a b c e h => by omega)
    hitQ3_trans
    x y z

theorem hitLt_trans (x y z : Hit) :
    hitLtProp x y → hitLtProp y z → hitLtProp x z := by
  unfold hitLtProp
  exact @lex_trans Hit
    (fun a b => strcmpList a.pattern.name b.pattern.name < 0)
    (fun a b => a.pattern.name = b.pattern.name)
    hitQ2
    (fun a b c h h' => strcmpList_trans _ _ _ h h')
    (fun a b c e e' => e.trans e')
    (fun a b c h e => by
      show strcmpList a.pattern.name c.pattern.name < 0
      rw [← show b.pattern.name = c.pattern.name from e]
      exact h)
    (fun a b c e h => by
      show strcmpList a.pattern.name c.pattern.name < 0
      rw [show a.pattern.name = b.pattern.name from e]
      exact h)
    hitQ2_trans
    x y z

theorem hitLt_irrefl (a : Hit) : ¬ hitLtProp a a := by
  unfold hitLtProp hitQ2 hitQ3 hitQ4
  have h0 : strcmpList a.pattern.name a.pattern.name = 0 :=
    (strcmpList_eq_zero_iff _ _).mpr rfl
  have h1 : strcmpList a.read1Name a.read1Name = 0 :=
    (strcmpList_eq_zero_iff _ _).mpr rfl
  rintro (h | ⟨_, h | ⟨_, h | ⟨_, h | ⟨_, h⟩⟩⟩⟩) <;> omega

theorem hitLt_asymm (a b : Hit) : hitLtProp a b → ¬ hitLtProp b a :=
  fun h h' => hitLt_irrefl a (hitLt_trans a b a h h')

theorem hitKeysEq_symm (a b : Hit) : hitKeysEq a b → hitKeysEq b a := by
  rintro ⟨e1, e2, e3, e4, e5⟩
  exact ⟨e1.symm, e2.symm, e3.symm, e4.symm, e5.symm⟩

theorem hitKeysEq_trans (a b c : Hit) :
    hitKeysEq a b → hitKeysEq b c → hitKeysEq a c := by
  rintro ⟨e1, e2, e3, e4, e5⟩ ⟨f1, f2, f3, f4, f5⟩
  exact ⟨e1.trans f1, e2.trans f2, e3.trans f3, e4.trans f4, e5.trans f5⟩

theorem hitKeysEq_lt_left (a b c : Hit) (e : hitKeysEq a b) :
    hitLtProp a c → hitLtProp b c := by
  obtain ⟨e1, e2, e3, e4, e5⟩ := e
  intro h
  unfold hitLtProp hitQ2 hitQ3 hitQ4 at h ⊢
  rw [e1, e2, e3, e4, e5] at h
  exact h

theorem hitKeysEq_lt_right (a b c : Hit) (e : hitKeysEq b c) :
    hitLtProp a b → hitLtProp a c := by
  obtain ⟨e1, e2, e3, e4, e5⟩ := e
  intro h
  unfold hitLtProp hitQ2 hitQ3 hitQ4 at h ⊢
  rw [e1, e2, e3, e4, e5] at h
  exact h

theorem HitCompare_true_iff (a b : Hit) :
    HitCompare a b = true ↔ hitLtProp a b := by
  unfold HitCompare hitLtProp hitQ2 hitQ3 hitQ4
  split_ifs with h1 h2 h3 h4
  · simp only [decide_eq_true_eq]
    constructor
    · exact Or.inl
    · rintro (h | ⟨hn, _⟩)
      · exact h
      · exact absurd ((strcmpList_eq_zero_iff _ _).mpr hn) h1
  · have h0 : strcmpList a.pattern.name b.pattern.name = 0 := not_not.mp h1
    have hn : a.pattern.name = b.pattern.name :=
      (strcmpList_eq_zero_iff _ _).mp h0
    simp only [decide_eq_true_eq]
    constructor
    · intro h
      exact Or.inr ⟨hn, Or.inl (by omega)⟩
    · rintro (h | ⟨_, h | ⟨he, _⟩⟩) <;> omega
  · have h0 : strcmpList a.pattern.name b.pattern.name = 0 := not_not.mp h1
    have hn : a.pattern.name = b.pattern.name :=
      (strcmpList_eq_zero_iff _ _).mp h0
    have hlb : a.pattern.leftBases = b.pattern.leftBases := by
      have := not_not.mp h2
      omega
    simp only [decide_eq_true_eq]
    constructor
    · intro h
      exact Or.inr ⟨hn, Or.inr ⟨hlb, Or.inl (by omega)⟩⟩
    · rintro (h | ⟨_, h | ⟨_, h | ⟨he, _⟩⟩⟩) <;> omega
  · have h0 : strcmpList a.pattern.name b.pattern.name = 0 := not_not.mp h1
    have hn : a.pattern.name = b.pattern.name :=
      (strcmpList_eq_zero_iff _ _).mp h0
    have hlb : a.pattern.leftBases = b.pattern.leftBases := by
      have := not_not.mp h2
      omega
    have hrb : a.pattern.rightBases = b.pattern.rightBases := by
      have := not_not.mp h3
      omega
    simp only [decide_eq_true_eq]
    constructor
    · intro h
      exact Or.inr ⟨hn, Or.inr ⟨hlb, Or.inr ⟨hrb, Or.inl (by omega)⟩⟩⟩
    · rintro (h | ⟨_, h | ⟨_, h | ⟨_, h | ⟨he, _⟩⟩⟩⟩) <;> omega
  · have h0 : strcmpList a.pattern.name b.pattern.name = 0 := not_not.mp h1
    have hn : a.pattern.name = b.pattern.name :=
      (strcmpList_eq_zero_iff _ _).mp h0
    have hlb : a.pattern.leftBases = b.pattern.leftBases := by
      have := not_not.mp h2
      omega
    have hrb : a.pattern.rightBases = b.pattern.rightBases := by
      have := not_not.mp h3
      omega
    have hsc : a.pattern.spanningCount = b.pattern.spanningCount := by
      have := not_not.mp h4
      omega
    rw [stringLtList_iff]
    constructor
    · intro h
      exact Or.inr ⟨hn, Or.inr ⟨hlb, Or.inr ⟨hrb, Or.inr ⟨hsc, h⟩⟩⟩⟩
    · rintro (h | ⟨_, h | ⟨_, h | ⟨_, h | ⟨_, h⟩⟩⟩⟩)
      · omega
      · omega
      · omega
      · omega
      · exact h

theorem HitCompare_false_iff (a b : Hit) :
    HitCompare a b = false ↔ (hitLtProp b a ∨ hitKeysEq a b) := by
  rw [← Bool.not_eq_true, HitCompare_true_iff]
  constructor
  · intro h
    rcases hitLt_total_keys a b with h' | h' | h'
    · exact absurd h' h
    · exact Or.inl h'
    · exact Or.inr h'
  · rintro (h' | h') h
    · exact hitLt_asymm b a h' h
    · exact hitLt_irrefl b (hitKeysEq_lt_left a b b h' h)

instance : IsTotal Hit hitLE :=
  ⟨fun a b => by
    unfold hitLE
    rw [HitCompare_false_iff, HitCompare_false_iff]
    rcases hitLt_total_keys a b with h | h | h
    · exact Or.inl (Or.inl h)
    · exact Or.inr (Or.inl h)
    · exact Or.inr (Or.inr h)⟩

instance : IsTrans Hit hitLE :=
  ⟨fun a b c hab hbc => by
    unfold hitLE at hab hbc ⊢
    rw [HitCompare_false_iff] at hab hbc ⊢
    rcases hab with h1 | h1 <;> rcases hbc with h2 | h2
    · exact Or.inl (hitLt_trans a b c h1 h2)
    · exact Or.inl (hitKeysEq_lt_right a b c (hitKeysEq_symm c b h2) h1)
    · exact Or.inl (hitKeysEq_lt_left b a c h1 h2)
    · exact Or.inr (hitKeysEq_trans c b a h2 h1)⟩

/-- The flagging applied to each (predecessor, hit) pair. -/
def dupFlag (pq : Hit × Hit) : Hit :=
  if sameAs pq.2 pq.1 then { pq.2 with duplicate := true } else pq.2

theorem markDupAux_eq : ∀ (l : List Hit) (prev : Hit),
    markDupAux prev l = ((prev :: l).zip l).map dupFlag := by
  intro l
  induction l with
  | nil => intro prev; rfl
  | cons h rest ih =>
    intro prev
    by_cases hs : sameAs h prev = true
    · simp only [markDupAux, if_pos hs, List.zip_cons_cons, List.map_cons]
      congr 1
      · simp [dupFlag, hs]
      · rw [ih { h with duplicate := true }]
        cases rest with
        | nil => rfl
        | cons r rest' =>
          simp only [List.zip_cons_cons, List.map_cons]
          rfl
    · simp only [markDupAux, if_neg hs, List.zip_cons_cons, List.map_cons]
      congr 1
      · simp [dupFlag, hs]
      · exact ih h

theorem markDuplicates_cons (h : Hit) (rest : List Hit) :
    markDuplicates (h :: rest) =
      h :: ((h :: rest).zip rest).map dupFlag := by
  simp only [markDuplicates]
  rw [markDupAux_eq]

/-- C7 (amended): sortHits produces a permutation of the parsed hits in
    which no hit is strictly before its predecessor in the claimed order
    — ascending pattern name, then ascending leftBases, then ascending
    rightBases, then descending spanningCount, then ascending first-read
    name — and HitCompare decides exactly that order; markDuplicates then
    flags a hit exactly when it agrees with its immediate predecessor on
    (pattern name, leftBases, rightBases): only the later hit of an
    agreeing adjacent pair is flagged, and the first hit of a run keeps
    its flag. -/
theorem readHits_sort_dup_ok (hits : List Hit) :
    List.Perm (sortHits hits) hits ∧
    List.Pairwise (fun x y => ¬ hitLtProp y x) (sortHits hits) ∧
    (∀ x y : Hit, HitCompare x y = true ↔ hitLtProp x y) ∧
    (∀ h rest, markDuplicates (h :: rest) =
      h :: ((h :: rest).zip rest).map dupFlag) := by
  refine ⟨List.perm_insertionSort hitLE hits, ?_,
    HitCompare_true_iff, markDuplicates_cons⟩
  refine (List.sorted_insertionSort hitLE hits).imp ?_
  intro a b hab hlt
  have ht : HitCompare b a = true := (HitCompare_true_iff b a).mpr hlt
  unfold hitLE at hab
  rw [ht] at hab
  exact absurd hab (by decide)

/-- C7 counterexample: two hits agreeing on (pattern name, leftBases,
    rightBases) end up adjacent after sorting, yet only the second is
    flagged by markDuplicates — they are not flagged "as duplicates of
    each other": the first keeps duplicate = false. -/
theorem markDuplicates_counterexample :
    sameAs (⟨⟨['P'], 3, 4, 1⟩, ['r', '2'], false⟩ : Hit)
      (⟨⟨['P'], 3, 4, 1⟩, ['r', '1'], false⟩ : Hit) = true ∧
    (readHitsStore
      [⟨⟨['P'], 3, 4, 1⟩, ['r', '1'], false⟩,
       ⟨⟨['P'], 3, 4, 1⟩, ['r', '2'], false⟩]).map Hit.duplicate =
      [false, true] := by
  constructor
  · decide
  · decide

/-- The FUZZION2 line marker from hit.h line 18. -/
def FUZZION2 : List Char := ['f', 'u', 'z', 'z', 'i', 'o', 'n', '2', ' ']

/-- The READ_PAIRS line marker from hit.cpp line 20. -/
def READ_PAIRS : List Char :=
  ['r', 'e', 'a', 'd', '-', 'p', 'a', 'i', 'r', 's', ' ']

/-- util.cpp hasPrefix (lines 192-200): the first argument starts with
    the second.  The C++ compares s.substr(0, |p|) with p after a length
    check; the recursive character-by-character comparison is
    equivalent. -/
def hasPrefixStr : List Char → List Char → Bool
  | _, [] => true
  | [], _ :: _ => false
  | c :: t, p :: q => c == p && hasPrefixStr t q

/-- isHeadingLine from hit.cpp lines 146-149. -/
def isHeadingLine (line : List Char) : Bool :=
  hasPrefixStr line FUZZION2

/-- isReadPairLine from hit.cpp lines 194-197. -/
def isReadPairLine (line : List Char) : Bool :=
  hasPrefixStr line READ_PAIRS

/-- isValidHeadingLine from hit.cpp lines 154-179: at least nine
    tab-separated columns, fixed headings in columns 1-8, a first column
    that splits on one blank into the marker and a non-empty version;
    the outputs version and annotation headings (columns 9 and up) are
    returned instead of being written to reference parameters. -/
def isValidHeadingLine (line : List Char) :
    Option (List Char × List (List Char)) :=
  if isHeadingLine line = false ∨ (splitString line '\t').length ≤ 8 ∨
     (splitString line '\t').getD 1 [] ≠ "sequence".toList ∨
     (splitString line '\t').getD 2 [] ≠ "matching bases".toList ∨
     (splitString line '\t').getD 3 [] ≠ "possible".toList ∨
     (splitString line '\t').getD 4 [] ≠ "% match".toList ∨
     (splitString line '\t').getD 5 [] ≠ "junction spanning".toList ∨
     (splitString line '\t').getD 6 [] ≠ "left overlap".toList ∨
     (splitString line '\t').getD 7 [] ≠ "right overlap".toList ∨
     (splitString line '\t').getD 8 [] ≠ "insert size".toList then none
  else if (splitString ((splitString line '\t').getD 0 []) ' ').length ≠ 2 ∨
     (splitString ((splitString line '\t').getD 0 []) ' ').getD 1 [] = []
  then none
  else some ((splitString ((splitString line '\t').getD 0 []) ' ').getD 1 [],
    (splitString line '\t').drop 9)

/-- The digit-accumulation part of istream >> uint64_t (num_get /
    strtoull semantics): parse greedily after an optional sign; with no
    digit the stored value is 0 (C++11 stores 0 on a failed conversion);
    a magnitude beyond the 64-bit range stores UINT64_MAX; a negative
    in-range magnitude wraps modulo 2^64. -/
def uint64Core (t : List Char) (neg : Bool) : Nat :=
  let ds := t.takeWhile (fun c => decide ('0' ≤ c ∧ c ≤ '9'))
  if ds = [] then 0
  else
    let v := ds.foldl (fun acc c => 10 * acc + (c.toNat - 48)) 0
    if 2 ^ 64 ≤ v then 2 ^ 64 - 1
    else if neg then (2 ^ 64 - v) % 2 ^ 64
    else v

/-- istream >> uint64_t applied to a whitespace-delimited token (hit.cpp
    lines 212-213): skip leading whitespace, then an optional sign and
    digits. -/
def readUInt64 (s : List Char) : Nat :=
  match s.dropWhile (fun c => decide (c = ' ' ∨ c = '\t' ∨ c = '\n' ∨
      c = '\r' ∨ c = '\x0b' ∨ c = '\x0c')) with
  | '-' :: r => uint64Core r true
  | '+' :: r => uint64Core r false
  | r => uint64Core r false

/-- isValidReadPairLine from hit.cpp lines 203-217: numReadPairs starts
    at UINT64_MAX; when the line is a read-pairs line forming a single
    tab column that splits on one blank into the marker and a token, the
    token is extracted into numReadPairs; the line is valid — returning
    the count — exactly when the final value is below UINT64_MAX. -/
def isValidReadPairLine (line : List Char) : Option Nat :=
  if isReadPairLine line = true ∧ (splitString line '\t').length = 1 ∧
     (splitString ((splitString line '\t').getD 0 []) ' ').length = 2 then
    let n := readUInt64
      ((splitString ((splitString line '\t').getD 0 []) ' ').getD 1 [])
    if n < 2 ^ 64 - 1 then some n else none
  else none

/-- The read-pair count a line contributes to the returned total. -/
def readPairCount (line : List Char) : Nat :=
  (isValidReadPairLine line).getD 0

/-- A line the readHits loop passes over without error and without
    storing a hit: a heading line equal to the first one, or a valid
    read-pairs line. -/
def benignLine (heading line : List Char) : Prop :=
  (isHeadingLine line = true ∧ line = heading) ∨
  (isHeadingLine line = false ∧ isReadPairLine line = true ∧
   (isValidReadPairLine line).isSome = true)

instance (heading line : List Char) : Decidable (benignLine heading line) := by
  unfold benignLine
  infer_instance

/-- The while loop of readHits (hit.cpp lines 405-431) together with its
    closing lines 433-439: a heading line equal to the first is skipped,
    a differing heading line raises "inconsistent heading lines", a
    read-pairs line adds its count to the uint64 total (modulo 2^64), and
    any other line starts a hit: getHit reads two further lines; since
    the HitRead and annotated-Pattern constructors that hit.cpp's
    getPattern/getRead invoke are absent from the headers in src (the C3
    regression), the three-line hit parser is taken as the parameter
    getHitFn.  A parsed hit is appended while the vector is below
    MAX_HITS = 2147483647; at end of input the hits are sorted and
    duplicate-marked (readHitsStore) and the total is returned.  The
    three list shapes of the stepping cases implement the two getline
    calls of getHit: with fewer than two lines after the pattern line a
    getline fails, getHit returns NULL, and the loop raises "unexpected
    hit format"; the heading and read-pairs branches are identical in
    all three shapes. -/
def readHitsLoop (getHitFn : List Char → List Char → List Char → Option Hit)
    (heading : List Char) :
    Nat → List Hit → List (List Char) → Except (List Char) (Nat × List Hit)
  | total, hits, [] => Except.ok (total, readHitsStore hits)
  | total, hits, [line] =>
    if isHeadingLine line then
      if line = heading then readHitsLoop getHitFn heading total hits []
      else Except.error ("inconsistent heading lines".toList)
    else if isReadPairLine line then
      if (isValidReadPairLine line).isSome then
        readHitsLoop getHitFn heading
          ((total + (isValidReadPairLine line).getD 0) % 2 ^ 64) hits []
      else Except.error ("unexpected input line: ".toList ++ line)
    else Except.error ("unexpected hit format: ".toList ++ line)
  | total, hits, [line, r1] =>
    if isHeadingLine line then
      if line = heading then readHitsLoop getHitFn heading total hits [r1]
      else Except.error ("inconsistent heading lines".toList)
    else if isReadPairLine line then
      if (isValidReadPairLine line).isSome then
        readHitsLoop getHitFn heading
          ((total + (isValidReadPairLine line).getD 0) % 2 ^ 64) hits [r1]
      else Except.error ("unexpected input line: ".toList ++ line)
    else Except.error ("unexpected hit format: ".toList ++ line)
  | total, hits, line :: r1 :: r2 :: rest2 =>
    if isHeadingLine line then
      if line = heading then
        readHitsLoop getHitFn heading total hits (r1 :: r2 :: rest2)
      else Except.error ("inconsistent heading lines".toList)
    else if isReadPairLine line then
      if (isValidReadPairLine line).isSome then
        readHitsLoop getHitFn heading
          ((total + (isValidReadPairLine line).getD 0) % 2 ^ 64) hits
          (r1 :: r2 :: rest2)
      else Except.error ("unexpected input line: ".toList ++ line)
    else if h : (getHitFn line r1 r2).isSome then
      if hits.length < 2147483647 then
        readHitsLoop getHitFn heading total
          (hits ++ [(getHitFn line r1 r2).get h]) rest2
      else Except.error ("too many hits".toList)
    else Except.error ("unexpected hit format: ".toList ++ line)

theorem readHitsLoop_step_heading
    (getHitFn : List Char → List Char → List Char → Option Hit)
    (heading : List Char) (total : Nat) (hits : List Hit)
    (line : List Char) (rest : List (List Char))
    (h1 : isHeadingLine line = true) (h2 : line = heading) :
    readHitsLoop getHitFn heading total hits (line :: rest) =
      readHitsLoop getHitFn heading total hits rest := by
  rcases rest with _ | ⟨r1, rest'⟩
  · simp only [readHitsLoop, if_pos h1, if_pos h2]
  · rcases rest' with _ | ⟨r2, rest2⟩
    · simp only [readHitsLoop, if_pos h1, if_pos h2]
    · simp only [readHitsLoop, if_pos h1, if_pos h2]

theorem readHitsLoop_step_error
    (getHitFn : List Char → List Char → List Char → Option Hit)
    (heading : List Char) (total : Nat) (hits : List Hit)
    (line : List Char) (rest : List (List Char))
    (h1 : isHeadingLine line = true) (h2 : line ≠ heading) :
    readHitsLoop getHitFn heading total hits (line :: rest) =
      Except.error ("inconsistent heading lines".toList) := by
  rcases rest with _ | ⟨r1, rest'⟩
  · simp only [readHitsLoop, if_pos h1, if_neg h2]
  · rcases rest' with _ | ⟨r2, rest2⟩
    · simp only [readHitsLoop, if_pos h1, if_neg h2]
    · simp only [readHitsLoop, if_pos h1, if_neg h2]

theorem readHitsLoop_step_readpair
    (getHitFn : List Char → List Char → List Char → Option Hit)
    (heading : List Char) (total : Nat) (hits : List Hit)
    (line : List Char) (rest : List (List Char))
    (h1 : isHeadingLine line = false) (h2 : isReadPairLine line = true)
    (h3 : (isValidReadPairLine line).isSome = true) :
    readHitsLoop getHitFn heading total hits (line :: rest) =
      readHitsLoop getHitFn heading
        ((total + readPairCount line) % 2 ^ 64) hits rest := by
  have h1n : ¬ isHeadingLine line = true := by simp [h1]
  rcases rest with _ | ⟨r1, rest'⟩
  · simp only [readHitsLoop, if_neg h1n, if_pos h2, if_pos h3,
      readPairCount]
  · rcases rest' with _ | ⟨r2, rest2⟩
    · simp only [readHitsLoop, if_neg h1n, if_pos h2, if_pos h3,
        readPairCount]
    · simp only [readHitsLoop, if_neg h1n, if_pos h2, if_pos h3,
        readPairCount]

/-- readHits from hit.cpp lines 393-440 over the stream's lines: the
    first line must be a valid heading line giving the version and the
    annotation headings; the loop processes the remaining lines. -/
def readHits (getHitFn : List Char → List Char → List Char → Option Hit)
    (lines : List (List Char)) :
    Except (List Char) (List Char × List (List Char) × Nat × List Hit) :=
  match lines with
  | [] => Except.error ("no input".toList)
  | headingLine :: rest =>
    match isValidHeadingLine headingLine with
    | none => Except.error ("unexpected heading line".toList)
    | some (version, annot) =>
      match readHitsLoop getHitFn headingLine 0 [] rest with
      | Except.error e => Except.error e
      | Except.ok (total, hits) => Except.ok (version, annot, total, hits)

theorem isHeading_not_readPair (l : List Char)
    (h : isHeadingLine l = true) : isReadPairLine l = false := by
  unfold isHeadingLine at h
  unfold isReadPairLine
  cases l with
  | nil => exact absurd h (by decide)
  | cons c t =>
    unfold FUZZION2 at h
    unfold READ_PAIRS
    simp only [hasPrefixStr, Bool.and_eq_true, beq_iff_eq] at h
    obtain ⟨hc, _⟩ := h
    subst hc
    rfl

theorem readPairCount_of_heading (l : List Char)
    (h : isHeadingLine l = true) : readPairCount l = 0 := by
  have hrp := isHeading_not_readPair l h
  unfold readPairCount isValidReadPairLine
  rw [if_neg (by simp [hrp])]
  rfl

theorem readHitsLoop_benign
    (getHitFn : List Char → List Char → List Char → Option Hit)
    (heading : List Char) :
    ∀ (lines : List (List Char)) (total : Nat) (hits : List Hit),
      total < 2 ^ 64 →
      (∀ l ∈ lines, benignLine heading l) →
      readHitsLoop getHitFn heading total hits lines =
        Except.ok ((total + (lines.map readPairCount).sum) % 2 ^ 64,
          readHitsStore hits) := by
  intro lines
  induction lines with
  | nil =>
    intro total hits htot _
    simp only [readHitsLoop, List.map_nil, List.sum_nil, Nat.add_zero]
    rw [Nat.mod_eq_of_lt htot]
  | cons line rest ih =>
    intro total hits htot hb
    have hbl := hb line (List.mem_cons_self _ _)
    have hbr : ∀ l ∈ rest, benignLine heading l :=
      fun l hl => hb l (List.mem_cons_of_mem _ hl)
    rcases hbl with ⟨hh, hle⟩ | ⟨hh, hrp, hval⟩
    · subst hle
      rw [readHitsLoop_step_heading getHitFn line total hits line rest hh
        rfl, ih total hits htot hbr, List.map_cons, List.sum_cons,
        readPairCount_of_heading _ hh, Nat.zero_add]
    · rw [readHitsLoop_step_readpair getHitFn heading total hits line rest
        hh hrp hval,
        ih ((total + readPairCount line) % 2 ^ 64) hits
          (Nat.mod_lt _ (by norm_num)) hbr,
        List.map_cons, List.sum_cons, Nat.mod_add_mod, Nat.add_assoc]

/-- C8: in the readHits loop, a later heading line identical to the
    first is accepted and skipped; a later heading line that differs
    raises the "inconsistent heading lines" error; and over any stream of
    repeated headings and valid read-pairs lines following a valid
    heading line, readHits returns the sum of all read-pairs counts
    (as a uint64, i.e. modulo 2^64) with no hits stored. -/
theorem readHits_ok
    (getHitFn : List Char → List Char → List Char → Option Hit)
    (heading version line : List Char) (annot : List (List Char))
    (total : Nat) (hits : List Hit) (rest lines : List (List Char)) :
    (isHeadingLine line = true → line = heading →
      readHitsLoop getHitFn heading total hits (line :: rest) =
        readHitsLoop getHitFn heading total hits rest) ∧
    (isHeadingLine line = true → line ≠ heading →
      readHitsLoop getHitFn heading total hits (line :: rest) =
        Except.error ("inconsistent heading lines".toList)) ∧
    (isValidHeadingLine heading = some (version, annot) →
      (∀ l ∈ lines, benignLine heading l) →
      readHits getHitFn (heading :: lines) =
        Except.ok (version, annot,
          (lines.map readPairCount).sum % 2 ^ 64, ([] : List Hit))) := by
  refine ⟨?_, ?_, ?_⟩
  · intro h1 h2
    exact readHitsLoop_step_heading getHitFn heading total hits line rest
      h1 h2
  · intro h1 h2
    exact readHitsLoop_step_error getHitFn heading total hits line rest
      h1 h2
  · intro hvh hben
    simp only [readHits, hvh]
    rw [readHitsLoop_benign getHitFn heading lines 0 [] (by norm_num) hben,
      Nat.zero_add]
    rfl

/-- Witness for C8: the three behaviors at a concrete nine-column
    heading line, a repeated identical heading, a differing heading
    "fuzzion2 v9.9", and the read-pairs lines 3 and 4 summing to 7. -/
theorem readHits_ok_witness :
    (readHitsLoop (fun _ _ _ => none)
        "fuzzion2 v1.2\tsequence\tmatching bases\tpossible\t% match\tjunction spanning\tleft overlap\tright overlap\tinsert size".toList
        5 []
        ("fuzzion2 v1.2\tsequence\tmatching bases\tpossible\t% match\tjunction spanning\tleft overlap\tright overlap\tinsert size".toList
          :: ["read-pairs 3".toList]) =
      readHitsLoop (fun _ _ _ => none)
        "fuzzion2 v1.2\tsequence\tmatching bases\tpossible\t% match\tjunction spanning\tleft overlap\tright overlap\tinsert size".toList
        5 [] ["read-pairs 3".toList]) ∧
    (readHitsLoop (fun _ _ _ => none)
        "fuzzion2 v1.2\tsequence\tmatching bases\tpossible\t% match\tjunction spanning\tleft overlap\tright overlap\tinsert size".toList
        0 [] ["fuzzion2 v9.9".toList] =
      Except.error ("inconsistent heading lines".toList)) ∧
    (readHits (fun _ _ _ => none)
        ("fuzzion2 v1.2\tsequence\tmatching bases\tpossible\t% match\tjunction spanning\tleft overlap\tright overlap\tinsert size".toList
          :: ["read-pairs 3".toList,
              "fuzzion2 v1.2\tsequence\tmatching bases\tpossible\t% match\tjunction spanning\tleft overlap\tright overlap\tinsert size".toList,
              "read-pairs 4".toList]) =
      Except.ok ("v1.2".toList, [],
        (["read-pairs 3".toList,
          "fuzzion2 v1.2\tsequence\tmatching bases\tpossible\t% match\tjunction spanning\tleft overlap\tright overlap\tinsert size".toList,
          "read-pairs 4".toList].map readPairCount).sum % 2 ^ 64,
        ([] : List Hit))) ∧
    (["read-pairs 3".toList,
      "fuzzion2 v1.2\tsequence\tmatching bases\tpossible\t% match\tjunction spanning\tleft overlap\tright overlap\tinsert size".toList,
      "read-pairs 4".toList].map readPairCount).sum % 2 ^ 64 = 7 :=
  ⟨(readHits_ok (fun _ _ _ => none)
      "fuzzion2 v1.2\tsequence\tmatching bases\tpossible\t% match\tjunction spanning\tleft overlap\tright overlap\tinsert size".toList
      []
      "fuzzion2 v1.2\tsequence\tmatching bases\tpossible\t% match\tjunction spanning\tleft overlap\tright overlap\tinsert size".toList
      [] 5 [] ["read-pairs 3".toList] []).1 (by decide) rfl,
   (readHits_ok (fun _ _ _ => none)
      "fuzzion2 v1.2\tsequence\tmatching bases\tpossible\t% match\tjunction spanning\tleft overlap\tright overlap\tinsert size".toList
      [] "fuzzion2 v9.9".toList [] 0 [] [] []).2.1 (by decide) (by decide),
   (readHits_ok (fun _ _ _ => none)
      "fuzzion2 v1.2\tsequence\tmatching bases\tpossible\t% match\tjunction spanning\tleft overlap\tright overlap\tinsert size".toList
      "v1.2".toList [] [] 0 [] []
      ["read-pairs 3".toList,
       "fuzzion2 v1.2\tsequence\tmatching bases\tpossible\t% match\tjunction spanning\tleft overlap\tright overlap\tinsert size".toList,
       "read-pairs 4".toList]).2.2 (by decide) (by decide),
   by decide⟩

end Fuzzion2
